import Mathlib

/-!
Verification development for the FlyWise flight route and fare comparator
(`flight_planner.py`).  The Python source is shallowly embedded below:
pure functions become Lean functions, the two priority-queue search loops
become explicit step functions iterated with fuel, dictionaries become
association lists, and raised exceptions become `Except` / `Option` results.
Times and fares are natural numbers (minutes of day, integer fares), airports
are strings, exactly as in the source.
-/

namespace FlightPlanner

/-- `MIN_LAYOVER_MINUTES = 60` from the source. -/
def MIN_LAYOVER_MINUTES : Nat := 60

/-- The `Flight` dataclass: origin, dest, flight_number, depart, arrive
(minutes since midnight) and the three cabin fares. -/
structure Flight where
  origin : String
  dest : String
  flight_number : String
  depart : Nat
  arrive : Nat
  economy : Nat
  business : Nat
  first : Nat
deriving DecidableEq, Repr

/-- `Flight.price_for(cabin)`: cabins are runtime strings in Python; the
final `raise ValueError` is modelled as `none`. -/
def price_for (fl : Flight) (cabin : String) : Option Nat :=
  if cabin = "economy" then some fl.economy
  else if cabin = "business" then some fl.business
  else if cabin = "first" then some fl.first
  else none

/-- `Itinerary.total_price`: sum of per-leg fares; an unrecognized cabin makes
`price_for` raise, modelled by `none`. -/
def total_price (legs : List Flight) (cabin : String) : Option Nat :=
  legs.foldr
    (fun f acc =>
      match price_for f cabin, acc with
      | some p, some a => some (p + a)
      | _, _ => none)
    (some 0)

/-- `Itinerary.num_stops`: `max(0, len(flights) - 1)` (Nat subtraction agrees). -/
def num_stops (legs : List Flight) : Nat := legs.length - 1

/-- `Itinerary.depart_time`: `None` on an empty flight list. -/
def depart_time (legs : List Flight) : Option Nat := legs.head?.map (·.depart)

/-- `Itinerary.arrive_time`: `None` on an empty flight list. -/
def arrive_time (legs : List Flight) : Option Nat := legs.getLast?.map (·.arrive)

/-- Destination of the last leg, if any (`Itinerary.dest`). -/
def last_dest (legs : List Flight) : Option String := legs.getLast?.map (·.dest)

/-! ### Time parsing and formatting -/

/-- Splitting a character list on a separator character, the semantics of
Python `str.split(sep)` for a one-character separator (core `String.splitOn`
is avoided because its recursion does not reduce in the kernel). -/
def splitOnChar (sep : Char) : List Char → List (List Char)
  | [] => [[]]
  | c :: rest =>
    let r := splitOnChar sep rest
    if c = sep then [] :: r
    else
      match r with
      | [] => [[c]]
      | h :: t => (c :: h) :: t

/-- Python `str.strip()`: drop whitespace from both ends. -/
def trimChars (l : List Char) : List Char :=
  ((l.dropWhile (·.isWhitespace)).reverse.dropWhile (·.isWhitespace)).reverse

/-- Python `str.split()` with no separator: whitespace runs delimit words,
leading/trailing whitespace ignored. -/
def wordsAux : List Char → List Char → List (List Char)
  | [], cur => if cur = [] then [] else [cur.reverse]
  | c :: rest, cur =>
    if c.isWhitespace then
      if cur = [] then wordsAux rest [] else cur.reverse :: wordsAux rest []
    else wordsAux rest (c :: cur)

/-- Words of a character list. -/
def words (l : List Char) : List (List Char) := wordsAux l []

/-- Model of Python `int(s)` restricted to an optional sign followed by
digits (the only shapes the schedule formats can contain; no whitespace or
underscore handling is modelled). -/
def pyInt (s : List Char) : Option Int :=
  let core (t : List Char) : Option Nat :=
    if t = [] then none
    else if t.all (·.isDigit) then
      some (t.foldl (fun acc c => acc * 10 + (c.toNat - 48)) 0)
    else none
  match s with
  | '-' :: rest => (core rest).map (fun n => -(n : Int))
  | '+' :: rest => (core rest).map (fun n => (n : Int))
  | l => (core l).map (fun n => (n : Int))

/-- `parse_time`: split on `":"`, require exactly two fields, parse both as
ints, check `0 <= h < 24` and `0 <= m < 60`; any failure raises (`none`). -/
def parse_time (hhmm : String) : Option Nat :=
  match splitOnChar ':' hhmm.data with
  | [hs, ms] =>
    match pyInt hs, pyInt ms with
    | some h, some m =>
      if 0 ≤ h ∧ h < 24 ∧ 0 ≤ m ∧ m < 60 then some (h.toNat * 60 + m.toNat)
      else none
    | _, _ => none
  | _ => none

/-- Two-digit zero padding, the `{x:02d}` format specifier for naturals. -/
def pad2 (n : Nat) : String :=
  if n < 10 then "0" ++ toString n else toString n

/-- `format_time`: minutes since midnight back to zero-padded `HH:MM`. -/
def format_time (minutes : Nat) : String :=
  pad2 (minutes / 60) ++ ":" ++ pad2 (minutes % 60)

/-! ### Schedule loaders -/

/-- Whether a load-time error carries the offending row number, as the claim
about loader errors is only about that. -/
inductive LoadErr where
  | rowed (row : Nat)
  | bare
deriving DecidableEq, Repr

instance {ε α : Type} [DecidableEq ε] [DecidableEq α] : DecidableEq (Except ε α) := fun a b =>
  match a, b with
  | .error e, .error f =>
    if h : e = f then isTrue (by rw [h]) else isFalse (by simp [h])
  | .ok x, .ok y =>
    if h : x = y then isTrue (by rw [h]) else isFalse (by simp [h])
  | .error _, .ok _ => isFalse (by simp)
  | .ok _, .error _ => isFalse (by simp)

/-- `parse_flight_line_txt`: strip, skip blanks and `#` comments (returning
`none` inside `ok`), split on whitespace, require 8 fields, parse the times,
require `arrive > depart`, parse the three fares.  Raises become `.error`. -/
def parse_flight_line_txt (line : String) : Except Unit (Option Flight) :=
  let l := trimChars line.data
  if l = [] ∨ l.head? = some '#' then .ok none
  else
    match words l with
    | [origin, dst, num, de, ar, e, b, f] =>
      match parse_time (String.mk de), parse_time (String.mk ar) with
      | some depart, some arrive =>
        if arrive ≤ depart then .error ()
        else
          match pyInt e, pyInt b, pyInt f with
          | some e', some b', some f' =>
            .ok (some ⟨String.mk origin, String.mk dst, String.mk num,
              depart, arrive, e'.toNat, b'.toNat, f'.toNat⟩)
          | _, _, _ => .error ()
      | _, _ => .error ()
    | _ => .error ()

/-- `load_flights_txt`: parse each line, catching any per-line exception and
re-raising it tagged with the 1-based line number. -/
def load_flights_txt (contents : List String) : Except LoadErr (List Flight) :=
  let rec go (i : Nat) : List String → List Flight → Except LoadErr (List Flight)
    | [], acc => .ok acc.reverse
    | l :: rest, acc =>
      match parse_flight_line_txt l with
      | .error _ => .error (.rowed i)
      | .ok none => go (i + 1) rest acc
      | .ok (some f) => go (i + 1) rest (f :: acc)
  go 1 contents []

/-- Lookup of a CSV cell by column name in a header/cells pair (the dict a
`csv.DictReader` yields for simple, unquoted rows; a short row leaves the
field `None`, which then makes `parse_time`/`int` raise). -/
def csvCell (hdr cells : List (List Char)) (k : List Char) : Option (List Char) :=
  ((hdr.zip cells).find? (fun p => p.1 = k)).map (·.2)

/-- One CSV data row to a `Flight`; any raise inside becomes `.error` with no
row information, exactly as the source propagates the bare exception. -/
def csvRow (hdr : List (List Char)) (line : String) : Except Unit Flight :=
  let cells := splitOnChar ',' line.data
  match csvCell hdr cells "depart".data, csvCell hdr cells "arrive".data with
  | some de, some ar =>
    match parse_time (String.mk de), parse_time (String.mk ar) with
    | some dep, some arr =>
      if arr ≤ dep then .error ()
      else
        match csvCell hdr cells "origin".data, csvCell hdr cells "dest".data,
              csvCell hdr cells "flight_number".data with
        | some o, some d, some n =>
          match (csvCell hdr cells "economy".data).bind pyInt,
                (csvCell hdr cells "business".data).bind pyInt,
                (csvCell hdr cells "first".data).bind pyInt with
          | some e, some b, some f =>
            .ok ⟨String.mk o, String.mk d, String.mk n, dep, arr, e.toNat, b.toNat, f.toNat⟩
          | _, _, _ => .error ()
        | _, _, _ => .error ()
    | _, _ => .error ()
  | _, _ => .error ()

/-- `load_flights_csv` over the file's lines (simple unquoted CSV): read the
header, check the required columns, then convert every row; all raises
propagate untagged (no row number is ever attached). -/
def load_flights_csv (contents : List String) : Except LoadErr (List Flight) :=
  match contents with
  | [] => .error .bare
  | hdrLine :: rows =>
    let hdr := splitOnChar ',' hdrLine.data
    let req := ["origin", "dest", "flight_number", "depart", "arrive",
                "economy", "business", "first"]
    if req.all (fun r => hdr.contains r.data) then
      let rec go : List String → List Flight → Except LoadErr (List Flight)
        | [], acc => .ok acc.reverse
        | l :: rest, acc =>
          if l = "" then go rest acc
          else
            match csvRow hdr l with
            | .error _ => .error .bare
            | .ok f => go rest (f :: acc)
      go rows []
    else .error .bare

/-! ### Route graph -/

/-- The route graph: insertion-ordered mapping from origin airport to its
outbound flights (a Python dict as an association list). -/
abbrev Graph : Type := List (String × List Flight)

/-- `graph.setdefault(f.origin, []).append(f)` for one flight. -/
def insertFlight (g : Graph) (f : Flight) : Graph :=
  match g with
  | [] => [(f.origin, [f])]
  | (a, fs) :: rest =>
    if a = f.origin then (a, fs ++ [f]) :: rest else (a, fs) :: insertFlight rest f

/-- `build_graph`: fold the flights into the dict in input order. -/
def build_graph (flights : List Flight) : Graph :=
  flights.foldl insertFlight []

/-- `graph.get(airport, [])`: empty outbound list for unknown airports. -/
def graphGet (g : Graph) (airport : String) : List Flight :=
  match g with
  | [] => []
  | (a, fs) :: rest => if a = airport then fs else graphGet rest airport

/-! ### Association-list helpers (Python dict lookup/assignment) -/

/-- Dict lookup. -/
def alGet {β : Type} (l : List (String × β)) (k : String) : Option β :=
  match l with
  | [] => none
  | (k', v) :: rest => if k' = k then some v else alGet rest k

/-- Dict assignment `d[k] = v`: overwrite the first binding or append. -/
def alSet {β : Type} (l : List (String × β)) (k : String) (v : β) : List (String × β) :=
  match l with
  | [] => [(k, v)]
  | (k', v') :: rest =>
    if k' = k then (k, v) :: rest else (k', v') :: alSet rest k v

/-! ### Itinerary reconstruction -/

/-- Outcome of one search call.  `hang` marks the one situation in which the
Python `while cur in prev` loop of `reconstruct_itinerary` would never
terminate (a cycle in the predecessor map), which a fuel bound detects. -/
inductive SearchResult where
  | none
  | found (legs : List Flight)
  | raised
  | hang
deriving DecidableEq, Repr

/-- The backward walk of `reconstruct_itinerary`.  The Python loop appends
each predecessor flight and reverses at the end; prepending builds the same
chronological list directly.  Fuel running out (`none`) corresponds to the
Python loop running forever. -/
def reconAux (prev : List (String × Flight)) : Nat → String → List Flight → Option (List Flight)
  | fuel, cur, acc =>
    match alGet prev cur with
    | Option.none => some acc
    | some fl =>
      match fuel with
      | 0 => Option.none
      | n + 1 => reconAux prev n fl.origin (fl :: acc)

/-- `reconstruct_itinerary(prev, dest)`.  An acyclic predecessor chain visits
pairwise distinct mapped airports, so `prev.length` steps of fuel are enough
exactly when the Python loop terminates. -/
def reconstruct_itinerary (prev : List (String × Flight)) (dest : String) : SearchResult :=
  match reconAux prev prev.length dest [] with
  | some legs => .found legs
  | Option.none => .hang

/-! ### The generic loop driver -/

/-- One iteration of a search loop either continues with a new state or
exits the function with a result. -/
inductive StepRes (σ : Type) where
  | cont (s : σ)
  | done (r : SearchResult) (s : σ)

/-- `while pq:` driver: iterate the loop body until it exits, with fuel.
`none` means the fuel ran out, never that the search failed. -/
def runSteps {σ : Type} (step : σ → StepRes σ) : Nat → σ → Option (SearchResult × σ)
  | 0, _ => Option.none
  | n + 1, s =>
    match step s with
    | .done r s' => some (r, s')
    | .cont s' => runSteps step n s'

/-! ### Earliest-arrival search -/

/-- Lexicographic `<` on the heap tuples `(arrival, airport)` of
`find_earliest_itinerary`, exactly Python's tuple comparison. -/
def eLess (x y : Nat × String) : Bool :=
  x.1 < y.1 || (x.1 == y.1 && x.2 < y.2)

/-- The least element of `m :: xs` under `eLess`. -/
def minE (m : Nat × String) (xs : List (Nat × String)) : Nat × String :=
  match xs with
  | [] => m
  | x :: rest => minE (if eLess x m then x else m) rest

/-- `heapq.heappop`: remove and return the smallest tuple. -/
def popMinE (pq : List (Nat × String)) : Option ((Nat × String) × List (Nat × String)) :=
  match pq with
  | [] => Option.none
  | x :: xs =>
    let m := minE x xs
    some (m, (x :: xs).erase m)

/-- Working state of `find_earliest_itinerary`: the `dist` and `prev` dicts,
the heap, the visited set, and a ghost `log` of the airports finalized so
far, in order (the source keeps no such list; it is recorded here only to
state properties of the run). -/
structure EState where
  dist : List (String × Nat)
  prev : List (String × Flight)
  pq : List (Nat × String)
  visited : List String
  log : List String
deriving DecidableEq, Repr

/-- The relaxation update of one improving flight in the earliest search:
`dist[f.dest] = f.arrive; prev[f.dest] = f; heappush(pq, (f.arrive, f.dest))`. -/
def eUpd (s : EState) (f : Flight) : EState :=
  { s with
    dist := alSet s.dist f.dest f.arrive
    prev := alSet s.prev f.dest f
    pq := s.pq ++ [(f.arrive, f.dest)] }

/-- The `for f in graph.get(airport, [])` relaxation loop of
`find_earliest_itinerary`. -/
def relaxListE (start : String) (curTime : Nat) (airport : String) :
    List Flight → EState → EState
  | [], s => s
  | f :: fs, s =>
    let required := if airport = start then curTime else curTime + MIN_LAYOVER_MINUTES
    let s' :=
      if required ≤ f.depart then
        match alGet s.dist f.dest with
        | Option.none => eUpd s f
        | some d => if f.arrive < d then eUpd s f else s
      else s
    relaxListE start curTime airport fs s'

/-- One iteration of the `while pq:` loop of `find_earliest_itinerary`. -/
def estep (g : Graph) (start dest : String) (s : EState) : StepRes EState :=
  match popMinE s.pq with
  | Option.none => .done .none s
  | some ((curTime, airport), rest) =>
    if airport ∈ s.visited then .cont { s with pq := rest }
    else
      let s1 : EState :=
        { s with pq := rest, visited := airport :: s.visited, log := s.log ++ [airport] }
      if airport = dest then .done (reconstruct_itinerary s1.prev dest) s1
      else .cont (relaxListE start curTime airport (graphGet g airport) s1)

/-- Initial state of `find_earliest_itinerary`. -/
def eInit (start : String) (t0 : Nat) : EState :=
  { dist := [(start, t0)], prev := [], pq := [(t0, start)], visited := [], log := [] }

/-- The earliest-arrival search run with the given fuel. -/
def erun (g : Graph) (start dest : String) (fuel : Nat) (s : EState) :
    Option (SearchResult × EState) :=
  runSteps (estep g start dest) fuel s

/-- `find_earliest_itinerary(graph, start, dest, t0)` returns `r`: some
amount of fuel lets the loop run to its `return`. -/
def EReturns (g : Graph) (start dest : String) (t0 : Nat) (r : SearchResult) : Prop :=
  ∃ n s', erun g start dest n (eInit start t0) = some (r, s')

/-! ### Cheapest-fare search -/

/-- Lexicographic `<` on the heap tuples `(cost, arrival, airport)` of
`find_cheapest_itinerary`. -/
def cLess (x y : Nat × Nat × String) : Bool :=
  x.1 < y.1 ||
    (x.1 == y.1 &&
      (x.2.1 < y.2.1 || (x.2.1 == y.2.1 && x.2.2 < y.2.2)))

/-- The least element of `m :: xs` under `cLess`. -/
def minC (m : Nat × Nat × String) (xs : List (Nat × Nat × String)) : Nat × Nat × String :=
  match xs with
  | [] => m
  | x :: rest => minC (if cLess x m then x else m) rest

/-- `heapq.heappop` for the cheapest search's triples. -/
def popMinC (pq : List (Nat × Nat × String)) :
    Option ((Nat × Nat × String) × List (Nat × Nat × String)) :=
  match pq with
  | [] => Option.none
  | x :: xs =>
    let m := minC x xs
    some (m, (x :: xs).erase m)

/-- Working state of `find_cheapest_itinerary`; `visited` holds
`(airport, cost)` pairs as in the source, `log` is the ghost list of
finalized pairs in order. -/
structure CState where
  dist : List (String × Nat)
  prev : List (String × Flight)
  pq : List (Nat × Nat × String)
  visited : List (String × Nat)
  log : List (String × Nat)
deriving DecidableEq, Repr

/-- The relaxation update of one improving flight in the cheapest search. -/
def cUpd (s : CState) (f : Flight) (newCost : Nat) : CState :=
  { s with
    dist := alSet s.dist f.dest newCost
    prev := alSet s.prev f.dest f
    pq := s.pq ++ [(newCost, f.arrive, f.dest)] }

/-- The relaxation loop of `find_cheapest_itinerary`; an unrecognized cabin
makes `price_for` raise out of the whole search (`.error`). -/
def relaxListC (cabin start : String) (cost arrTime : Nat) (airport : String) :
    List Flight → CState → Except Unit CState
  | [], s => .ok s
  | f :: fs, s =>
    let earliestAllowed :=
      if airport = start then arrTime else arrTime + MIN_LAYOVER_MINUTES
    if earliestAllowed ≤ f.depart then
      match price_for f cabin with
      | Option.none => .error ()
      | some p =>
        let newCost := cost + p
        let s' :=
          match alGet s.dist f.dest with
          | Option.none => cUpd s f newCost
          | some d => if newCost < d then cUpd s f newCost else s
        relaxListC cabin start cost arrTime airport fs s'
    else relaxListC cabin start cost arrTime airport fs s

/-- One iteration of the `while pq:` loop of `find_cheapest_itinerary`. -/
def cstep (g : Graph) (cabin start dest : String) (s : CState) : StepRes CState :=
  match popMinC s.pq with
  | Option.none => .done .none s
  | some ((cost, arrTime, airport), rest) =>
    if (airport, cost) ∈ s.visited then .cont { s with pq := rest }
    else
      let s1 : CState :=
        { s with
          pq := rest
          visited := (airport, cost) :: s.visited
          log := s.log ++ [(airport, cost)] }
      if airport = dest then .done (reconstruct_itinerary s1.prev dest) s1
      else
        match relaxListC cabin start cost arrTime airport (graphGet g airport) s1 with
        | .ok s2 => .cont s2
        | .error _ => .done .raised s1

/-- Initial state of `find_cheapest_itinerary`. -/
def cInit (start : String) (t0 : Nat) : CState :=
  { dist := [(start, 0)], prev := [], pq := [(0, t0, start)], visited := [], log := [] }

/-- The cheapest-fare search run with the given fuel. -/
def crun (g : Graph) (cabin start dest : String) (fuel : Nat) (s : CState) :
    Option (SearchResult × CState) :=
  runSteps (cstep g cabin start dest) fuel s

/-- `find_cheapest_itinerary(graph, start, dest, t0, cabin)` returns `r`. -/
def CReturns (g : Graph) (cabin start dest : String) (t0 : Nat) (r : SearchResult) : Prop :=
  ∃ n s', crun g cabin start dest n (cInit start t0) = some (r, s')

/-! ### Feasibility (the spec's itinerary invariant) -/

/-- The spec's connection-time invariant along a sequence of legs taken from
the graph: starting at `frm` with minimum allowed departure `minDep`, every
leg leaves from where the previous one arrived, departs no earlier than
allowed, and is an outbound flight of its origin in the graph; each later
leg must wait `MIN_LAYOVER_MINUTES` after the previous arrival. -/
def legsChain (g : Graph) : String → Nat → List Flight → Prop
  | _, _, [] => True
  | frm, minDep, f :: rest =>
    f.origin = frm ∧ minDep ≤ f.depart ∧ f ∈ graphGet g frm ∧
      legsChain g f.dest (f.arrive + MIN_LAYOVER_MINUTES) rest

instance legsChainDecidable (g : Graph) :
    ∀ (frm : String) (minDep : Nat) (legs : List Flight), Decidable (legsChain g frm minDep legs)
  | _, _, [] => isTrue trivial
  | frm, minDep, f :: rest =>
    have := legsChainDecidable g f.dest (f.arrive + MIN_LAYOVER_MINUTES) rest
    by unfold legsChain; infer_instance

/-- A feasible itinerary from `start` to `dest` for earliest departure `t0`:
a non-empty chain of graph flights obeying the spec's layover/departure
constraints whose last leg lands at `dest`. -/
def Feasible (g : Graph) (start dest : String) (t0 : Nat) (legs : List Flight) : Prop :=
  legs ≠ [] ∧ legsChain g start t0 legs ∧ last_dest legs = some dest

instance (g : Graph) (start dest : String) (t0 : Nat) (legs : List Flight) :
    Decidable (Feasible g start dest t0 legs) := by
  unfold Feasible; infer_instance

/-! ### Comparison reporter -/

/-- The `ComparisonRow` dataclass. -/
structure ComparisonRow where
  mode : String
  cabin : Option String
  itinerary : Option (List Flight)
  note : String

/-- `r.cabin or 'N/A'`: Python truthiness, so both `None` and the empty
string display as the sentinel. -/
def cabinDisp (c : Option String) : String :=
  match c with
  | Option.none => "N/A"
  | some s => if s = "" then "N/A" else s

/-- One row of the report body.  `none` models the exceptions the source can
raise here: `format_time(None)` on an empty-but-present itinerary, or
`price_for` on an unrecognized cabin. -/
def format_row (r : ComparisonRow) : Option String :=
  match r.itinerary with
  | Option.none =>
    some (r.mode ++ " | " ++ cabinDisp r.cabin ++ " | N/A | N/A | N/A | N/A | N/A | " ++ r.note)
  | some legs =>
    match depart_time legs, arrive_time legs with
    | some dep, some arr =>
      let dur : Int := (arr : Int) - (dep : Int)
      let duration := toString (dur.fdiv 60) ++ "h" ++ pad2 (dur.emod 60).toNat ++ "m"
      let priceStr : Option String :=
        match r.cabin with
        | Option.none => some "N/A"
        | some c =>
          if c = "" then some "N/A" else (total_price legs c).map toString
      priceStr.map (fun ps =>
        r.mode ++ " | " ++ cabinDisp r.cabin ++ " | " ++ format_time dep ++ " | " ++
          format_time arr ++ " | " ++ duration ++ " | " ++ toString (num_stops legs) ++
          " | " ++ ps ++ " | " ++ r.note)
    | _, _ => Option.none

/-- `format_comparison_table`: route header, column header, dash rule, then
one line per row (the `earliest_departure` argument is unused, as in the
source). -/
def format_comparison_table (origin dest : String) (earliestDeparture : Nat)
    (rows : List ComparisonRow) : Option String :=
  let header := "Mode | Cabin | Dep | Arr | Duration | Stops | Total Price | Note"
  let headLines := [origin ++ " -> " ++ dest, header, String.mk (List.replicate header.length '-')]
  (rows.mapM format_row).map (fun rls => "\n".intercalate (headLines ++ rls))

/-! ### Concrete instances used by counterexamples and witnesses -/

/-- Early but pricier `A -> B` leg. -/
def legAB1 : Flight := ⟨"A", "B", "F1", 100, 150, 20, 20, 20⟩

/-- Late but cheaper `A -> B` leg. -/
def legAB2 : Flight := ⟨"A", "B", "F2", 100, 500, 10, 10, 10⟩

/-- The `B -> C` connection, only reachable from the early arrival. -/
def legBC : Flight := ⟨"B", "C", "F3", 260, 300, 1, 1, 1⟩

/-- Graph on which the cheapest search misbehaves: the cheap-but-late
arrival at `B` is finalized first and blocks the `B -> C` connection, after
which the stale pricier pop of `B` relaxes it anyway. -/
def gBad : Graph := build_graph [legAB1, legAB2, legBC]

/-- A same-day loop flight `A -> A`. -/
def legLoop : Flight := ⟨"A", "A", "L1", 10, 20, 1, 1, 1⟩

/-- One-flight graph with a loop at `A`. -/
def gLoop : Graph := build_graph [legLoop]

/-- The spec's section-8 scenario: `A -> B` 08:00-09:00 economy 100 and
`B -> C` 10:00-11:00 economy 50. -/
def legAB : Flight := ⟨"A", "B", "S1", 480, 540, 100, 200, 300⟩

/-- Second leg of the spec scenario. -/
def legBC2 : Flight := ⟨"B", "C", "S2", 600, 660, 50, 80, 90⟩

/-- Graph of the spec's section-8 scenario. -/
def gScen : Graph := build_graph [legAB, legBC2]

/-! ### Validity, measures, and search invariants -/

/-- All flights stored in a graph. -/
def allFlights (g : Graph) : List Flight := (g.map Prod.snd).flatten

/-- A graph of valid flights: every stored flight arrives strictly after it
departs (the loader's invariant, decidable for concrete graphs). -/
def ValidGraph (g : Graph) : Prop :=
  ∀ p ∈ g, ∀ f ∈ p.2, f.depart < f.arrive

instance (g : Graph) : Decidable (ValidGraph g) := by
  unfold ValidGraph; infer_instance

/-- Every airport a search can ever label: the start plus all flight
destinations. -/
def univList (g : Graph) (start : String) : List String :=
  start :: (allFlights g).map (·.dest)

/-- How many of the given airports carry no `dist` label yet. -/
def unlabeledCount (L : List String) (dist : List (String × Nat)) : Nat :=
  L.countP (fun a => (alGet dist a).isNone)

/-- Sum of all labels in a `dist` dict. -/
def valSum (l : List (String × Nat)) : Nat := (l.map Prod.snd).sum

/-- Strict lexicographic order on measure triples. -/
def lex3 (a b : Nat × Nat × Nat) : Prop :=
  a.1 < b.1 ∨ (a.1 = b.1 ∧ (a.2.1 < b.2.1 ∨ (a.2.1 = b.2.1 ∧ a.2.2 < b.2.2)))

/-- Termination measure of the earliest search. -/
def eMeasure (g : Graph) (start : String) (s : EState) : Nat × Nat × Nat :=
  (unlabeledCount (univList g start) s.dist, valSum s.dist, s.pq.length)

/-- Termination measure of the cheapest search. -/
def cMeasure (g : Graph) (start : String) (s : CState) : Nat × Nat × Nat :=
  (unlabeledCount (univList g start) s.dist, valSum s.dist, s.pq.length)

/-- Index of the first occurrence of an airport in a list. -/
def firstIdx : List String → String → Nat
  | [], _ => 0
  | a :: rest, x => if a = x then 0 else firstIdx rest x + 1

/-- Number of predecessor entries whose stored arrival is below `d`; the
fuel measure of the backward walk in the earliest search. -/
def cntBelow (prev : List (String × Flight)) (d : Nat) : Nat :=
  prev.countP (fun p => p.2.arrive < d)

/-- `Y` was finalized, and strictly before `X` whenever `X` was finalized at
all (ranks taken in the ghost pop order `pa`). -/
def rankLTb (pa : List String) (Y X : String) : Bool :=
  pa.contains Y && (!(pa.contains X) || firstIdx pa Y < firstIdx pa X)

/-- Number of predecessor entries of strictly smaller rank than `X`; the
fuel measure of the backward walk in the cheapest search. -/
def cntRank (prev : List (String × Flight)) (pa : List String) (X : String) : Nat :=
  prev.countP (fun p => rankLTb pa p.1 X)

/-- Loop invariant of `find_earliest_itinerary`, stated at the head of each
`while` iteration. -/
structure EInv (g : Graph) (start dest : String) (t0 : Nat) (s : EState) : Prop where
  distNodup : (s.dist.map Prod.fst).Nodup
  prevNodup : (s.prev.map Prod.fst).Nodup
  startDist : alGet s.dist start = some t0
  startPrev : alGet s.prev start = Option.none
  distLB : ∀ X d, alGet s.dist X = some d → t0 ≤ d
  prevOfDist : ∀ X d, X ≠ start → alGet s.dist X = some d → (alGet s.prev X).isSome
  prevSound : ∀ X f, alGet s.prev X = some f → f.dest = X ∧ X ≠ start ∧
    f ∈ graphGet g f.origin ∧ alGet s.dist X = some f.arrive ∧
    ∃ d', alGet s.dist f.origin = some d' ∧ d' < f.arrive ∧
      (if f.origin = start then t0 ≤ f.depart else d' + MIN_LAYOVER_MINUTES ≤ f.depart)
  queueHasUnvisited : ∀ X d, alGet s.dist X = some d → X ∉ s.visited → (d, X) ∈ s.pq
  queueLabeled : ∀ k X, (k, X) ∈ s.pq → ∃ d, alGet s.dist X = some d ∧ d ≤ k
  visitedFrozen : ∀ X, X ∈ s.visited → ∃ d, alGet s.dist X = some d ∧
    ∀ k Y, (k, Y) ∈ s.pq → d ≤ k
  relaxedAll : ∀ X, X ∈ s.visited → ∀ d, alGet s.dist X = some d → ∀ f, f ∈ graphGet g X →
    (if X = start then t0 else d + MIN_LAYOVER_MINUTES) ≤ f.depart →
    ∃ d2, alGet s.dist f.dest = some d2 ∧ d2 ≤ f.arrive
  visitedOpt : ∀ X, X ∈ s.visited → ∀ d, alGet s.dist X = some d →
    ∀ legs, legsChain g start t0 legs → last_dest legs = some X →
    ∀ a, arrive_time legs = some a → d ≤ a
  queuePrev : ∀ k X, (k, X) ∈ s.pq → X = start ∨ (alGet s.prev X).isSome
  visitedLog : s.visited = s.log.reverse
  visitedNodup : s.visited.Nodup
  destNotVisited : dest ∉ s.visited

/-- Invariant of the earliest search in the middle of relaxing the edges of
the just-finalized airport `a0`, popped with key `k0`; `V0` is the
previously visited set, for which all eligible edges are already relaxed. -/
structure EMid (g : Graph) (start : String) (t0 : Nat) (V0 : List String) (k0 : Nat)
    (a0 : String) (s : EState) : Prop where
  distNodup : (s.dist.map Prod.fst).Nodup
  prevNodup : (s.prev.map Prod.fst).Nodup
  startDist : alGet s.dist start = some t0
  startPrev : alGet s.prev start = Option.none
  distLB : ∀ X d, alGet s.dist X = some d → t0 ≤ d
  prevOfDist : ∀ X d, X ≠ start → alGet s.dist X = some d → (alGet s.prev X).isSome
  prevSound : ∀ X f, alGet s.prev X = some f → f.dest = X ∧ X ≠ start ∧
    f ∈ graphGet g f.origin ∧ alGet s.dist X = some f.arrive ∧
    ∃ d', alGet s.dist f.origin = some d' ∧ d' < f.arrive ∧
      (if f.origin = start then t0 ≤ f.depart else d' + MIN_LAYOVER_MINUTES ≤ f.depart)
  queueHasUnvisited : ∀ X d, alGet s.dist X = some d → X ∉ s.visited → (d, X) ∈ s.pq
  queueLabeled : ∀ k X, (k, X) ∈ s.pq → ∃ d, alGet s.dist X = some d ∧ d ≤ k
  visitedFrozen : ∀ X, X ∈ s.visited → ∃ d, alGet s.dist X = some d ∧
    ∀ k Y, (k, Y) ∈ s.pq → d ≤ k
  relaxedOld : ∀ X, X ∈ V0 → ∀ d, alGet s.dist X = some d → ∀ f, f ∈ graphGet g X →
    (if X = start then t0 else d + MIN_LAYOVER_MINUTES) ≤ f.depart →
    ∃ d2, alGet s.dist f.dest = some d2 ∧ d2 ≤ f.arrive
  visitedOpt : ∀ X, X ∈ s.visited → ∀ d, alGet s.dist X = some d →
    ∀ legs, legsChain g start t0 legs → last_dest legs = some X →
    ∀ a, arrive_time legs = some a → d ≤ a
  queuePrev : ∀ k X, (k, X) ∈ s.pq → X = start ∨ (alGet s.prev X).isSome
  visitedEq : s.visited = a0 :: V0
  frozenLe : ∀ X, X ∈ s.visited → ∃ d, alGet s.dist X = some d ∧ d ≤ k0
  distA0 : alGet s.dist a0 = some k0

/-- Loop invariant of `find_cheapest_itinerary` (no optimality clause: the
search's visited discipline does not support one, see the counterexamples). -/
structure CInv (g : Graph) (start dest : String) (s : CState) : Prop where
  distNodup : (s.dist.map Prod.fst).Nodup
  prevNodup : (s.prev.map Prod.fst).Nodup
  startDist : alGet s.dist start = some 0
  startPrev : alGet s.prev start = Option.none
  prevOfDist : ∀ X d, X ≠ start → alGet s.dist X = some d → (alGet s.prev X).isSome
  prevSound : ∀ X f, alGet s.prev X = some f → f.dest = X ∧ X ≠ start ∧
    f ∈ graphGet g f.origin ∧ (alGet s.dist f.origin).isSome ∧
    f.origin ∈ s.log.map Prod.fst ∧
    (X ∈ s.log.map Prod.fst →
      firstIdx (s.log.map Prod.fst) f.origin < firstIdx (s.log.map Prod.fst) X)
  queueLabeled : ∀ c t X, (c, t, X) ∈ s.pq → ∃ d, alGet s.dist X = some d ∧ d ≤ c
  visitedFrozen : ∀ X, X ∈ s.log.map Prod.fst → ∃ d, alGet s.dist X = some d ∧
    ∀ c t Y, (c, t, Y) ∈ s.pq → d ≤ c
  queuePrev : ∀ c t X, (c, t, X) ∈ s.pq → X = start ∨ (alGet s.prev X).isSome
  visitedLog : s.visited = s.log.reverse
  visitedNodup : s.visited.Nodup

/-! ## Theorems -/

/-! ### Association-list lemmas -/

theorem alGet_mem {β : Type} {l : List (String × β)} {k : String} {v : β}
    (h : alGet l k = some v) : (k, v) ∈ l := by
  induction l with
  | nil => simp [alGet] at h
  | cons p rest ih =>
    obtain ⟨k', v'⟩ := p
    by_cases hk : k' = k
    · subst hk
      simp [alGet] at h
      simp [h]
    · simp [alGet, hk] at h
      simp [ih h]

theorem mem_keys_of_alGet {β : Type} {l : List (String × β)} {k : String} {v : β}
    (h : alGet l k = some v) : k ∈ l.map Prod.fst := by
  have := alGet_mem h
  exact List.mem_map.mpr ⟨(k, v), this, rfl⟩

theorem alGet_eq_none_of_not_mem {β : Type} {l : List (String × β)} {k : String}
    (h : k ∉ l.map Prod.fst) : alGet l k = none := by
  induction l with
  | nil => rfl
  | cons p rest ih =>
    obtain ⟨k', v'⟩ := p
    simp only [List.map_cons, List.mem_cons] at h
    push_neg at h
    have hk : ¬ k' = k := fun hh => h.1 hh.symm
    simp only [alGet, if_neg hk]
    exact ih h.2

theorem not_mem_keys_of_alGet_none {β : Type} {l : List (String × β)} {k : String}
    (h : alGet l k = none) : k ∉ l.map Prod.fst := by
  intro hmem
  induction l with
  | nil => simp at hmem
  | cons p rest ih =>
    obtain ⟨k', v'⟩ := p
    by_cases hk : k' = k
    · subst hk; simp [alGet] at h
    · simp [alGet, hk] at h
      simp only [List.map_cons, List.mem_cons] at hmem
      rcases hmem with hmem | hmem
      · exact hk hmem.symm
      · exact ih h hmem

theorem alGet_alSet_self {β : Type} (l : List (String × β)) (k : String) (v : β) :
    alGet (alSet l k v) k = some v := by
  induction l with
  | nil => simp [alSet, alGet]
  | cons p rest ih =>
    obtain ⟨k', v'⟩ := p
    by_cases hk : k' = k
    · subst hk; simp [alSet, alGet]
    · simp [alSet, alGet, hk, ih]

theorem alGet_alSet_ne {β : Type} (l : List (String × β)) (k x : String) (v : β)
    (h : x ≠ k) : alGet (alSet l k v) x = alGet l x := by
  have hkx : ¬ k = x := fun hh => h hh.symm
  induction l with
  | nil => simp only [alSet, alGet, if_neg hkx]
  | cons p rest ih =>
    obtain ⟨k', v'⟩ := p
    by_cases hk : k' = k
    · subst hk
      simp only [alSet, if_pos rfl, alGet, if_neg hkx]
    · simp only [alSet, if_neg hk, alGet, ih]

theorem alGet_alSet_isSome {β : Type} (l : List (String × β)) (k x : String) (v : β)
    (h : (alGet l x).isSome) : (alGet (alSet l k v) x).isSome := by
  by_cases hx : x = k
  · subst hx; rw [alGet_alSet_self]; rfl
  · rwa [alGet_alSet_ne l k x v hx]

theorem keys_alSet_of_get {β : Type} (l : List (String × β)) (k : String) (v : β)
    (h : (alGet l k).isSome) : (alSet l k v).map Prod.fst = l.map Prod.fst := by
  induction l with
  | nil => simp [alGet] at h
  | cons p rest ih =>
    obtain ⟨k', v'⟩ := p
    by_cases hk : k' = k
    · subst hk; simp [alSet]
    · simp only [alGet, if_neg hk] at h
      simp [alSet, hk, ih h]

theorem keys_alSet_of_none {β : Type} (l : List (String × β)) (k : String) (v : β)
    (h : alGet l k = none) : (alSet l k v).map Prod.fst = l.map Prod.fst ++ [k] := by
  induction l with
  | nil => simp [alSet]
  | cons p rest ih =>
    obtain ⟨k', v'⟩ := p
    by_cases hk : k' = k
    · subst hk; simp [alGet] at h
    · simp only [alGet, if_neg hk] at h
      simp [alSet, hk, ih h]

theorem nodup_keys_alSet {β : Type} (l : List (String × β)) (k : String) (v : β)
    (h : (l.map Prod.fst).Nodup) : ((alSet l k v).map Prod.fst).Nodup := by
  rcases hk : alGet l k with _ | w
  · rw [keys_alSet_of_none l k v hk]
    have : k ∉ l.map Prod.fst := not_mem_keys_of_alGet_none hk
    simp [List.nodup_append, h, this]
  · rw [keys_alSet_of_get l k v (by rw [hk]; rfl)]
    exact h

theorem valSum_alSet_get (l : List (String × Nat)) (k : String) (v d : Nat)
    (h : alGet l k = some d) : valSum (alSet l k v) + d = valSum l + v := by
  induction l with
  | nil => simp [alGet] at h
  | cons p rest ih =>
    obtain ⟨k', v'⟩ := p
    by_cases hk : k' = k
    · subst hk
      have hd : v' = d := by simpa [alGet] using h
      subst hd
      simp [alSet, valSum]
      omega
    · simp only [alGet, if_neg hk] at h
      have := ih h
      simp only [alSet, if_neg hk, valSum, List.map_cons, List.sum_cons] at this ⊢
      omega

theorem valSum_alSet_none (l : List (String × Nat)) (k : String) (v : Nat)
    (h : alGet l k = none) : valSum (alSet l k v) = valSum l + v := by
  induction l with
  | nil => simp [alSet, valSum]
  | cons p rest ih =>
    obtain ⟨k', v'⟩ := p
    by_cases hk : k' = k
    · subst hk; simp [alGet] at h
    · simp only [alGet, if_neg hk] at h
      have := ih h
      simp only [alSet, if_neg hk, valSum, List.map_cons, List.sum_cons] at this ⊢
      omega

/-! ### countP helpers -/

theorem countP_le_of_imp {α : Type} (l : List α) (p q : α → Bool)
    (h : ∀ a ∈ l, p a = true → q a = true) : l.countP p ≤ l.countP q := by
  induction l with
  | nil => simp
  | cons x rest ih =>
    have hrest := ih (fun a ha => h a (List.mem_cons_of_mem x ha))
    simp only [List.countP_cons]
    rcases hx : p x with _ | _
    · rcases hq : q x with _ | _ <;> simp [hx, hq] <;> omega
    · have hq : q x = true := h x (List.mem_cons_self x rest) hx
      simp [hx, hq]
      omega

theorem countP_lt_of_flip {α : Type} (l : List α) (p q : α → Bool) (x : α)
    (hmem : x ∈ l) (hq : q x = true) (hp : p x = false)
    (h : ∀ a ∈ l, p a = true → q a = true) : l.countP p < l.countP q := by
  induction l with
  | nil => simp at hmem
  | cons y rest ih =>
    simp only [List.countP_cons]
    rcases List.mem_cons.mp hmem with hy | hy
    · subst hy
      have := countP_le_of_imp rest p q (fun a ha => h a (List.mem_cons_of_mem x ha))
      simp [hp, hq]
      omega
    · have hrest := ih hy (fun a ha => h a (List.mem_cons_of_mem y ha))
      rcases hyp : p y with _ | _
      · rcases hqy : q y with _ | _ <;> simp [hyp, hqy] <;> omega
      · have hqy : q y = true := h y (List.mem_cons_self y rest) hyp
        simp [hyp, hqy]
        omega

theorem countP_congr_mem {α : Type} (l : List α) (p q : α → Bool)
    (h : ∀ a ∈ l, p a = q a) : l.countP p = l.countP q :=
  le_antisymm
    (countP_le_of_imp l p q (fun a ha hp => (h a ha) ▸ hp))
    (countP_le_of_imp l q p (fun a ha hq => (h a ha) ▸ hq))

/-! ### Heap-pop lemmas -/

theorem perm_cons_erase_beq {α : Type} [BEq α] [LawfulBEq α] {a : α} {l : List α}
    (h : a ∈ l) : l.Perm (a :: l.erase a) := by
  induction l with
  | nil => cases h
  | cons b t ih =>
    rw [List.erase_cons]
    by_cases hb : b = a
    · subst hb
      simp
    · have hba : (b == a) = false := beq_eq_false_iff_ne.mpr hb
      rw [if_neg (by simp [hba])]
      have ha : a ∈ t := by
        rcases List.mem_cons.mp h with h1 | h1
        · exact absurd h1.symm hb
        · exact h1
      exact ((ih ha).cons b).trans (List.Perm.swap a b _)

theorem eLess_true_le {x y : Nat × String} (h : eLess x y = true) : x.1 ≤ y.1 := by
  unfold eLess at h
  simp only [Bool.or_eq_true, Bool.and_eq_true, decide_eq_true_eq, beq_iff_eq] at h
  rcases h with h | ⟨h, _⟩
  · exact le_of_lt h
  · exact le_of_eq h

theorem eLess_false_le {x y : Nat × String} (h : eLess x y = false) : y.1 ≤ x.1 := by
  unfold eLess at h
  simp only [Bool.or_eq_false_iff, Bool.and_eq_false_iff, decide_eq_false_iff_not] at h
  exact Nat.le_of_not_lt h.1

theorem minE_facts (m : Nat × String) (xs : List (Nat × String)) :
    (minE m xs = m ∨ minE m xs ∈ xs) ∧
    (minE m xs).1 ≤ m.1 ∧ ∀ y ∈ xs, (minE m xs).1 ≤ y.1 := by
  induction xs generalizing m with
  | nil => exact ⟨Or.inl rfl, le_refl _, by simp⟩
  | cons x rest ih =>
    rcases hcmp : eLess x m with _ | _
    · have hstep : minE m (x :: rest) = minE m rest := by
        simp only [minE, hcmp]
        rfl
      rw [hstep]
      obtain ⟨h1, h2, h3⟩ := ih m
      refine ⟨?_, h2, ?_⟩
      · rcases h1 with h | h
        · exact Or.inl h
        · exact Or.inr (List.mem_cons_of_mem x h)
      · intro y hy
        rcases List.mem_cons.mp hy with hy | hy
        · subst hy
          exact le_trans h2 (eLess_false_le hcmp)
        · exact h3 y hy
    · have hstep : minE m (x :: rest) = minE x rest := by
        simp only [minE, hcmp]
        rfl
      rw [hstep]
      obtain ⟨h1, h2, h3⟩ := ih x
      refine ⟨?_, le_trans h2 (eLess_true_le hcmp), ?_⟩
      · rcases h1 with h | h
        · exact Or.inr (List.mem_cons.mpr (Or.inl h))
        · exact Or.inr (List.mem_cons_of_mem x h)
      · intro y hy
        rcases List.mem_cons.mp hy with hy | hy
        · subst hy; exact h2
        · exact h3 y hy

theorem popMinE_none {pq : List (Nat × String)} (h : popMinE pq = none) : pq = [] := by
  cases pq with
  | nil => rfl
  | cons x xs => simp [popMinE] at h

theorem popMinE_some {pq rest : List (Nat × String)} {m : Nat × String}
    (h : popMinE pq = some (m, rest)) :
    m ∈ pq ∧ (∀ y ∈ pq, m.1 ≤ y.1) ∧ pq.Perm (m :: rest) := by
  cases pq with
  | nil => simp [popMinE] at h
  | cons x xs =>
    simp only [popMinE, Option.some.injEq, Prod.mk.injEq] at h
    obtain ⟨hm, hrest⟩ := h
    have hf := minE_facts x xs
    have hmem : m ∈ x :: xs := by
      rcases hf.1 with h1 | h1
      · rw [← hm, h1]; exact List.mem_cons_self x xs
      · rw [← hm]; exact List.mem_cons_of_mem x h1
    refine ⟨hmem, ?_, ?_⟩
    · intro y hy
      rcases List.mem_cons.mp hy with hy | hy
      · subst hy; rw [← hm]; exact hf.2.1
      · rw [← hm]; exact hf.2.2 y hy
    · rw [← hrest, hm]
      exact perm_cons_erase_beq hmem

theorem cLess_true_le {x y : Nat × Nat × String} (h : cLess x y = true) : x.1 ≤ y.1 := by
  unfold cLess at h
  simp only [Bool.or_eq_true, Bool.and_eq_true, decide_eq_true_eq, beq_iff_eq] at h
  rcases h with h | ⟨h, _⟩
  · exact le_of_lt h
  · exact le_of_eq h

theorem cLess_false_le {x y : Nat × Nat × String} (h : cLess x y = false) : y.1 ≤ x.1 := by
  unfold cLess at h
  simp only [Bool.or_eq_false_iff, Bool.and_eq_false_iff, decide_eq_false_iff_not] at h
  exact Nat.le_of_not_lt h.1

theorem minC_facts (m : Nat × Nat × String) (xs : List (Nat × Nat × String)) :
    (minC m xs = m ∨ minC m xs ∈ xs) ∧
    (minC m xs).1 ≤ m.1 ∧ ∀ y ∈ xs, (minC m xs).1 ≤ y.1 := by
  induction xs generalizing m with
  | nil => exact ⟨Or.inl rfl, le_refl _, by simp⟩
  | cons x rest ih =>
    rcases hcmp : cLess x m with _ | _
    · have hstep : minC m (x :: rest) = minC m rest := by
        simp only [minC, hcmp]
        rfl
      rw [hstep]
      obtain ⟨h1, h2, h3⟩ := ih m
      refine ⟨?_, h2, ?_⟩
      · rcases h1 with h | h
        · exact Or.inl h
        · exact Or.inr (List.mem_cons_of_mem x h)
      · intro y hy
        rcases List.mem_cons.mp hy with hy | hy
        · subst hy
          exact le_trans h2 (cLess_false_le hcmp)
        · exact h3 y hy
    · have hstep : minC m (x :: rest) = minC x rest := by
        simp only [minC, hcmp]
        rfl
      rw [hstep]
      obtain ⟨h1, h2, h3⟩ := ih x
      refine ⟨?_, le_trans h2 (cLess_true_le hcmp), ?_⟩
      · rcases h1 with h | h
        · exact Or.inr (List.mem_cons.mpr (Or.inl h))
        · exact Or.inr (List.mem_cons_of_mem x h)
      · intro y hy
        rcases List.mem_cons.mp hy with hy | hy
        · subst hy; exact h2
        · exact h3 y hy

theorem popMinC_none {pq : List (Nat × Nat × String)} (h : popMinC pq = none) : pq = [] := by
  cases pq with
  | nil => rfl
  | cons x xs => simp [popMinC] at h

theorem popMinC_some {pq rest : List (Nat × Nat × String)} {m : Nat × Nat × String}
    (h : popMinC pq = some (m, rest)) :
    m ∈ pq ∧ (∀ y ∈ pq, m.1 ≤ y.1) ∧ pq.Perm (m :: rest) := by
  cases pq with
  | nil => simp [popMinC] at h
  | cons x xs =>
    simp only [popMinC, Option.some.injEq, Prod.mk.injEq] at h
    obtain ⟨hm, hrest⟩ := h
    have hf := minC_facts x xs
    have hmem : m ∈ x :: xs := by
      rcases hf.1 with h1 | h1
      · rw [← hm, h1]; exact List.mem_cons_self x xs
      · rw [← hm]; exact List.mem_cons_of_mem x h1
    refine ⟨hmem, ?_, ?_⟩
    · intro y hy
      rcases List.mem_cons.mp hy with hy | hy
      · subst hy; rw [← hm]; exact hf.2.1
      · rw [← hm]; exact hf.2.2 y hy
    · rw [← hrest, hm]
      exact perm_cons_erase_beq hmem

/-! ### Run-driver lemmas -/

theorem runSteps_mono {σ : Type} (step : σ → StepRes σ) :
    ∀ n m s out, runSteps step n s = some out → n ≤ m → runSteps step m s = some out := by
  intro n
  induction n with
  | zero => intro m s out h; simp [runSteps] at h
  | succ k ih =>
    intro m s out h hle
    obtain ⟨m', rfl⟩ : ∃ m', m = m' + 1 := ⟨m - 1, by omega⟩
    simp only [runSteps] at h ⊢
    cases hs : step s with
    | done r s' => rw [hs] at h; exact h
    | cont s' =>
      rw [hs] at h
      exact ih m' s' out h (by omega)

theorem runSteps_inv {σ : Type} (step : σ → StepRes σ) (Inv : σ → Prop)
    (Q : SearchResult → σ → Prop)
    (hcont : ∀ s s', Inv s → step s = .cont s' → Inv s')
    (hdone : ∀ s r s', Inv s → step s = .done r s' → Q r s') :
    ∀ n s r s', Inv s → runSteps step n s = some (r, s') → Q r s' := by
  intro n
  induction n with
  | zero => intro s r s' _ h; simp [runSteps] at h
  | succ k ih =>
    intro s r s' hi h
    simp only [runSteps] at h
    cases hs : step s with
    | done r0 s0 =>
      rw [hs] at h
      simp only [Option.some.injEq, Prod.mk.injEq] at h
      obtain ⟨h1, h2⟩ := h
      subst h1
      subst h2
      exact hdone s _ _ hi hs
    | cont s0 =>
      rw [hs] at h
      exact ih s0 r s' (hcont s s0 hi hs) h

/-! ### Reconstruction shape -/

theorem reconAux_eq (prev : List (String × Flight)) (fuel : Nat) (X : String)
    (acc : List Flight) :
    reconAux prev fuel X acc =
      match alGet prev X with
      | Option.none => some acc
      | some fl =>
        match fuel with
        | 0 => Option.none
        | n + 1 => reconAux prev n fl.origin (fl :: acc) := by
  rw [reconAux.eq_def]

theorem reconAux_shape (prev : List (String × Flight)) :
    ∀ fuel X acc legs, reconAux prev fuel X acc = some legs → ∃ pre, legs = pre ++ acc := by
  intro fuel
  induction fuel with
  | zero =>
    intro X acc legs h
    rw [reconAux_eq] at h
    rcases hget : alGet prev X with _ | fl <;> rw [hget] at h
    · injection h with h
      subst h
      exact ⟨[], by simp⟩
    · cases h
  | succ n ih =>
    intro X acc legs h
    rw [reconAux_eq] at h
    rcases hget : alGet prev X with _ | fl <;> rw [hget] at h
    · injection h with h
      subst h
      exact ⟨[], by simp⟩
    · obtain ⟨pre, hpre⟩ := ih fl.origin (fl :: acc) legs h
      exact ⟨pre ++ [fl], by simp [hpre]⟩

/-! ### Step characterization lemmas -/

theorem eUpd_dist (s : EState) (f : Flight) : (eUpd s f).dist = alSet s.dist f.dest f.arrive := rfl

theorem eUpd_prev (s : EState) (f : Flight) : (eUpd s f).prev = alSet s.prev f.dest f := rfl

theorem eUpd_pq (s : EState) (f : Flight) : (eUpd s f).pq = s.pq ++ [(f.arrive, f.dest)] := rfl

theorem eUpd_visited (s : EState) (f : Flight) : (eUpd s f).visited = s.visited := rfl

theorem eUpd_log (s : EState) (f : Flight) : (eUpd s f).log = s.log := rfl

theorem cUpd_dist (s : CState) (f : Flight) (c : Nat) : (cUpd s f c).dist = alSet s.dist f.dest c := rfl

theorem cUpd_prev (s : CState) (f : Flight) (c : Nat) : (cUpd s f c).prev = alSet s.prev f.dest f := rfl

theorem cUpd_pq (s : CState) (f : Flight) (c : Nat) : (cUpd s f c).pq = s.pq ++ [(c, f.arrive, f.dest)] := rfl

theorem cUpd_visited (s : CState) (f : Flight) (c : Nat) : (cUpd s f c).visited = s.visited := rfl

theorem cUpd_log (s : CState) (f : Flight) (c : Nat) : (cUpd s f c).log = s.log := rfl

/-- Exhaustive description of one iteration of the earliest-search loop. -/
theorem estep_char (g : Graph) (start dest : String) (s : EState) (out : StepRes EState)
    (h : estep g start dest s = out) :
    (popMinE s.pq = Option.none ∧ out = .done .none s) ∨
    (∃ k0 a0 rest, popMinE s.pq = some ((k0, a0), rest) ∧ a0 ∈ s.visited ∧
      out = .cont { s with pq := rest }) ∨
    (∃ k0 a0 rest, popMinE s.pq = some ((k0, a0), rest) ∧ a0 ∉ s.visited ∧ a0 = dest ∧
      out = .done (reconstruct_itinerary s.prev dest)
        { s with pq := rest, visited := a0 :: s.visited, log := s.log ++ [a0] }) ∨
    (∃ k0 a0 rest, popMinE s.pq = some ((k0, a0), rest) ∧ a0 ∉ s.visited ∧ a0 ≠ dest ∧
      out = .cont (relaxListE start k0 a0 (graphGet g a0)
        { s with pq := rest, visited := a0 :: s.visited, log := s.log ++ [a0] })) := by
  subst h
  rcases hpop : popMinE s.pq with _ | ⟨⟨k0, a0⟩, rest⟩
  · left
    exact ⟨rfl, by simp [estep, hpop]⟩
  · by_cases hvis : a0 ∈ s.visited
    · right; left
      exact ⟨k0, a0, rest, rfl, hvis, by simp [estep, hpop, hvis]⟩
    · by_cases hdest : a0 = dest
      · right; right; left
        refine ⟨k0, a0, rest, rfl, hvis, hdest, ?_⟩
        subst hdest
        simp [estep, hpop, hvis]
      · right; right; right
        exact ⟨k0, a0, rest, rfl, hvis, hdest, by simp [estep, hpop, hvis, hdest]⟩

/-- Exhaustive description of one iteration of the cheapest-search loop. -/
theorem cstep_char (g : Graph) (cabin start dest : String) (s : CState) (out : StepRes CState)
    (h : cstep g cabin start dest s = out) :
    (popMinC s.pq = Option.none ∧ out = .done .none s) ∨
    (∃ c0 t0 a0 rest, popMinC s.pq = some ((c0, t0, a0), rest) ∧ (a0, c0) ∈ s.visited ∧
      out = .cont { s with pq := rest }) ∨
    (∃ c0 t0 a0 rest, popMinC s.pq = some ((c0, t0, a0), rest) ∧ (a0, c0) ∉ s.visited ∧
      a0 = dest ∧
      out = .done (reconstruct_itinerary s.prev dest)
        { s with pq := rest, visited := (a0, c0) :: s.visited, log := s.log ++ [(a0, c0)] }) ∨
    (∃ c0 t0 a0 rest, popMinC s.pq = some ((c0, t0, a0), rest) ∧ (a0, c0) ∉ s.visited ∧
      a0 ≠ dest ∧
      ((∃ s2, relaxListC cabin start c0 t0 a0 (graphGet g a0)
          { s with pq := rest, visited := (a0, c0) :: s.visited, log := s.log ++ [(a0, c0)] } =
            .ok s2 ∧ out = .cont s2) ∨
       (relaxListC cabin start c0 t0 a0 (graphGet g a0)
          { s with pq := rest, visited := (a0, c0) :: s.visited, log := s.log ++ [(a0, c0)] } =
            .error () ∧
        out = .done .raised
          { s with pq := rest, visited := (a0, c0) :: s.visited, log := s.log ++ [(a0, c0)] }))) := by
  subst h
  rcases hpop : popMinC s.pq with _ | ⟨⟨c0, t0, a0⟩, rest⟩
  · left
    exact ⟨rfl, by simp [cstep, hpop]⟩
  · by_cases hvis : (a0, c0) ∈ s.visited
    · right; left
      exact ⟨c0, t0, a0, rest, rfl, hvis, by simp [cstep, hpop, hvis]⟩
    · by_cases hdest : a0 = dest
      · right; right; left
        refine ⟨c0, t0, a0, rest, rfl, hvis, hdest, ?_⟩
        subst hdest
        simp [cstep, hpop, hvis]
      · right; right; right
        refine ⟨c0, t0, a0, rest, rfl, hvis, hdest, ?_⟩
        set s1 : CState := { s with pq := rest, visited := (a0, c0) :: s.visited, log := s.log ++ [(a0, c0)] } with hs1
        rcases hrel : (relaxListC cabin start c0 t0 a0 (graphGet g a0) s1) with e | s2
        · right
          exact ⟨rfl, by simp [cstep, hpop, hvis, hdest, hs1, hrel]⟩
        · left
          exact ⟨s2, rfl, by simp [cstep, hpop, hvis, hdest, hs1, hrel]⟩

/-- One step of the earliest relaxation loop: the state either stays or
receives exactly one improving update, with the source's guards. -/
theorem relaxListE_cons_char (start : String) (curTime : Nat) (airport : String)
    (f : Flight) (fs : List Flight) (s : EState) :
    ∃ s1, relaxListE start curTime airport (f :: fs) s = relaxListE start curTime airport fs s1 ∧
      ((¬ (if airport = start then curTime else curTime + MIN_LAYOVER_MINUTES) ≤ f.depart ∧
        s1 = s) ∨
       ((if airport = start then curTime else curTime + MIN_LAYOVER_MINUTES) ≤ f.depart ∧
        alGet s.dist f.dest = Option.none ∧ s1 = eUpd s f) ∨
       ((if airport = start then curTime else curTime + MIN_LAYOVER_MINUTES) ≤ f.depart ∧
        (∃ d, alGet s.dist f.dest = some d ∧ f.arrive < d) ∧ s1 = eUpd s f) ∨
       ((if airport = start then curTime else curTime + MIN_LAYOVER_MINUTES) ≤ f.depart ∧
        (∃ d, alGet s.dist f.dest = some d ∧ ¬ f.arrive < d) ∧ s1 = s)) := by
  by_cases hreq : (if airport = start then curTime else curTime + MIN_LAYOVER_MINUTES) ≤ f.depart
  · rcases hd : alGet s.dist f.dest with _ | d
    · refine ⟨eUpd s f, ?_, Or.inr (Or.inl ⟨hreq, rfl, rfl⟩)⟩
      simp only [relaxListE, if_pos hreq, hd]
    · by_cases harr : f.arrive < d
      · refine ⟨eUpd s f, ?_, Or.inr (Or.inr (Or.inl ⟨hreq, ⟨d, rfl, harr⟩, rfl⟩))⟩
        simp only [relaxListE, if_pos hreq, hd, if_pos harr]
      · refine ⟨s, ?_, Or.inr (Or.inr (Or.inr ⟨hreq, ⟨d, rfl, harr⟩, rfl⟩))⟩
        simp only [relaxListE, if_pos hreq, hd, if_neg harr]
  · refine ⟨s, ?_, Or.inl ⟨hreq, rfl⟩⟩
    simp only [relaxListE, if_neg hreq]

/-- One step of the cheapest relaxation loop. -/
theorem relaxListC_cons_char (cabin start : String) (cost arrTime : Nat) (airport : String)
    (f : Flight) (fs : List Flight) (s : CState) :
    ((¬ (if airport = start then arrTime else arrTime + MIN_LAYOVER_MINUTES) ≤ f.depart ∧
      relaxListC cabin start cost arrTime airport (f :: fs) s =
        relaxListC cabin start cost arrTime airport fs s) ∨
     ((if airport = start then arrTime else arrTime + MIN_LAYOVER_MINUTES) ≤ f.depart ∧
      price_for f cabin = Option.none ∧
      relaxListC cabin start cost arrTime airport (f :: fs) s = .error ()) ∨
     (∃ p s1, (if airport = start then arrTime else arrTime + MIN_LAYOVER_MINUTES) ≤ f.depart ∧
      price_for f cabin = some p ∧
      relaxListC cabin start cost arrTime airport (f :: fs) s =
        relaxListC cabin start cost arrTime airport fs s1 ∧
      ((alGet s.dist f.dest = Option.none ∧ s1 = cUpd s f (cost + p)) ∨
       ((∃ d, alGet s.dist f.dest = some d ∧ cost + p < d) ∧ s1 = cUpd s f (cost + p)) ∨
       ((∃ d, alGet s.dist f.dest = some d ∧ ¬ cost + p < d) ∧ s1 = s)))) := by
  by_cases hreq : (if airport = start then arrTime else arrTime + MIN_LAYOVER_MINUTES) ≤ f.depart
  · rcases hp : price_for f cabin with _ | p
    · right; left
      refine ⟨hreq, rfl, ?_⟩
      simp only [relaxListC, if_pos hreq, hp]
    · right; right
      rcases hd : alGet s.dist f.dest with _ | d
      · refine ⟨p, cUpd s f (cost + p), hreq, rfl, ?_, Or.inl ⟨rfl, rfl⟩⟩
        simp only [relaxListC, if_pos hreq, hp, hd]
      · by_cases hlt : cost + p < d
        · refine ⟨p, cUpd s f (cost + p), hreq, rfl, ?_, Or.inr (Or.inl ⟨⟨d, rfl, hlt⟩, rfl⟩)⟩
          simp only [relaxListC, if_pos hreq, hp, hd, if_pos hlt]
        · refine ⟨p, s, hreq, rfl, ?_, Or.inr (Or.inr ⟨⟨d, rfl, hlt⟩, rfl⟩)⟩
          simp only [relaxListC, if_pos hreq, hp, hd, if_neg hlt]
  · left
    refine ⟨hreq, ?_⟩
    simp only [relaxListC, if_neg hreq]

/-! ### Queue entries always have predecessors (towards C4) -/

theorem relaxListE_queuePrev (start : String) (curTime : Nat) (airport : String) :
    ∀ fs (s : EState),
      (∀ k X, (k, X) ∈ s.pq → X = start ∨ (alGet s.prev X).isSome) →
      ∀ k X, (k, X) ∈ (relaxListE start curTime airport fs s).pq →
        X = start ∨ (alGet (relaxListE start curTime airport fs s).prev X).isSome := by
  intro fs
  induction fs with
  | nil => intro s hqp k X hk; exact hqp k X hk
  | cons f rest ih =>
    intro s hqp k X hk
    obtain ⟨s1, heq, hcases⟩ := relaxListE_cons_char start curTime airport f rest s
    rw [heq] at hk ⊢
    have hqp1 : ∀ k X, (k, X) ∈ s1.pq → X = start ∨ (alGet s1.prev X).isSome := by
      have hupd : s1 = s ∨ s1 = eUpd s f := by
        rcases hcases with ⟨_, h⟩ | ⟨_, _, h⟩ | ⟨_, _, h⟩ | ⟨_, _, h⟩
        · exact Or.inl h
        · exact Or.inr h
        · exact Or.inr h
        · exact Or.inl h
      rcases hupd with rfl | rfl
      · exact hqp
      · intro k X hk
        rw [eUpd_pq] at hk
        rcases List.mem_append.mp hk with hk | hk
        · rcases hqp k X hk with h | h
          · exact Or.inl h
          · right
            rw [eUpd_prev]
            exact alGet_alSet_isSome _ _ _ _ h
        · right
          simp only [List.mem_singleton, Prod.mk.injEq] at hk
          rw [eUpd_prev, hk.2, alGet_alSet_self]
          rfl
    exact ih s1 hqp1 k X hk

theorem relaxListC_queuePrev (cabin start : String) (cost arrTime : Nat) (airport : String) :
    ∀ fs (s s2 : CState),
      relaxListC cabin start cost arrTime airport fs s = .ok s2 →
      (∀ c t X, (c, t, X) ∈ s.pq → X = start ∨ (alGet s.prev X).isSome) →
      ∀ c t X, (c, t, X) ∈ s2.pq → X = start ∨ (alGet s2.prev X).isSome := by
  intro fs
  induction fs with
  | nil =>
    intro s s2 hok hqp c t X hk
    simp only [relaxListC] at hok
    cases hok
    exact hqp c t X hk
  | cons f rest ih =>
    intro s s2 hok hqp c t X hk
    rcases relaxListC_cons_char cabin start cost arrTime airport f rest s with
      ⟨_, heq⟩ | ⟨_, _, heq⟩ | ⟨p, s1, _, _, heq, hcases⟩
    · rw [heq] at hok
      exact ih s s2 hok hqp c t X hk
    · rw [heq] at hok
      cases hok
    · rw [heq] at hok
      have hqp1 : ∀ c t X, (c, t, X) ∈ s1.pq → X = start ∨ (alGet s1.prev X).isSome := by
        have hupd : s1 = s ∨ s1 = cUpd s f (cost + p) := by
          rcases hcases with ⟨_, h⟩ | ⟨_, h⟩ | ⟨_, h⟩
          · exact Or.inr h
          · exact Or.inr h
          · exact Or.inl h
        rcases hupd with rfl | rfl
        · exact hqp
        · intro c t X hk
          rw [cUpd_pq] at hk
          rcases List.mem_append.mp hk with hk | hk
          · rcases hqp c t X hk with h | h
            · exact Or.inl h
            · right
              rw [cUpd_prev]
              exact alGet_alSet_isSome _ _ _ _ h
          · right
            simp only [List.mem_singleton, Prod.mk.injEq] at hk
            rw [cUpd_prev, hk.2.2, alGet_alSet_self]
            rfl
      exact ih s1 s2 hok hqp1 c t X hk

theorem reconAux_found_nonempty (prev : List (String × Flight)) (dest : String)
    (f0 : Flight) (hget : alGet prev dest = some f0) :
    ∀ fuel legs, reconAux prev fuel dest [] = some legs → legs ≠ [] := by
  intro fuel legs h
  rw [reconAux_eq, hget] at h
  cases fuel with
  | zero => cases h
  | succ n =>
    obtain ⟨pre, hpre⟩ := reconAux_shape prev n f0.origin [f0] legs h
    subst hpre
    simp

theorem reconstruct_found_nonempty (prev : List (String × Flight)) (dest : String)
    (hsome : (alGet prev dest).isSome) :
    ∀ legs, reconstruct_itinerary prev dest = .found legs → legs ≠ [] := by
  intro legs hres
  obtain ⟨f0, hget⟩ := Option.isSome_iff_exists.mp hsome
  unfold reconstruct_itinerary at hres
  rcases haux : reconAux prev prev.length dest [] with _ | legs2
  · rw [haux] at hres; cases hres
  · rw [haux] at hres
    injection hres with h
    subst h
    exact reconAux_found_nonempty prev dest f0 hget prev.length legs2 haux

/-- C4 (amended): for every query with distinct start and destination, an
absent itinerary is the `None` result and every present itinerary either
search returns is a non-empty sequence of flights.  (When start equals the
destination both searches instead return a present itinerary with an empty
flight sequence, see the counterexample.) -/
theorem claim4_nonempty_amended (g : Graph) (start dest : String) (t0 : Nat)
    (hne : start ≠ dest) :
    (∀ legs, EReturns g start dest t0 (.found legs) → legs ≠ []) ∧
    (∀ cabin legs, CReturns g cabin start dest t0 (.found legs) → legs ≠ []) := by
  constructor
  · intro legs hret
    obtain ⟨n, sF, hrun⟩ := hret
    have hinit : ∀ k X, (k, X) ∈ (eInit start t0).pq →
        X = start ∨ (alGet (eInit start t0).prev X).isSome := by
      intro k X hk
      simp only [eInit, List.mem_singleton, Prod.mk.injEq] at hk
      exact Or.inl hk.2
    have hcont : ∀ s s',
        (∀ k X, (k, X) ∈ s.pq → X = start ∨ (alGet s.prev X).isSome) →
        estep g start dest s = .cont s' →
        ∀ k X, (k, X) ∈ s'.pq → X = start ∨ (alGet s'.prev X).isSome := by
      intro s s' hqp hstep
      rcases estep_char g start dest s _ hstep with ⟨_, hout⟩ |
        ⟨k0, a0, rest, hpop, hvis, hout⟩ |
        ⟨k0, a0, rest, hpop, hvis, hdest, hout⟩ |
        ⟨k0, a0, rest, hpop, hvis, hdest, hout⟩
      · cases hout
      · injection hout with hout
        subst hout
        intro k X hk
        have hperm := (popMinE_some hpop).2.2
        have : (k, X) ∈ s.pq := hperm.symm.mem_iff.mp (List.mem_cons_of_mem _ hk)
        exact hqp k X this
      · cases hout
      · injection hout with hout
        subst hout
        have hperm := (popMinE_some hpop).2.2
        set s1 : EState := { s with pq := rest, visited := a0 :: s.visited, log := s.log ++ [a0] } with hs1
        have hbase : ∀ k X, (k, X) ∈ s1.pq → X = start ∨ (alGet s1.prev X).isSome := by
          intro k X hk
          rw [hs1] at hk
          exact hqp k X (hperm.symm.mem_iff.mp (List.mem_cons_of_mem _ hk))
        exact relaxListE_queuePrev start k0 a0 (graphGet g a0) s1 hbase
    have hdone : ∀ s r s',
        (∀ k X, (k, X) ∈ s.pq → X = start ∨ (alGet s.prev X).isSome) →
        estep g start dest s = .done r s' →
        ∀ l2, r = .found l2 → l2 ≠ [] := by
      intro s r s' hqp hstep
      rcases estep_char g start dest s _ hstep with ⟨_, hout⟩ |
        ⟨k0, a0, rest, hpop, hvis, hout⟩ |
        ⟨k0, a0, rest, hpop, hvis, hdest, hout⟩ |
        ⟨k0, a0, rest, hpop, hvis, hdest, hout⟩
      · injection hout with hr hs
        subst hr
        intro l2 hl2
        cases hl2
      · cases hout
      · injection hout with hr hs
        subst hr
        subst hdest
        have hmem := (popMinE_some hpop).1
        rcases hqp k0 a0 hmem with hstart | hsome
        · exact absurd hstart.symm hne
        · intro l2 hl2
          exact reconstruct_found_nonempty s.prev a0 hsome l2 hl2
      · cases hout
    exact runSteps_inv (estep g start dest) _ _ hcont hdone n (eInit start t0)
      (.found legs) sF hinit hrun legs rfl
  · intro cabin legs hret
    obtain ⟨n, sF, hrun⟩ := hret
    have hinit : ∀ c t X, (c, t, X) ∈ (cInit start t0).pq →
        X = start ∨ (alGet (cInit start t0).prev X).isSome := by
      intro c t X hk
      simp only [cInit, List.mem_singleton, Prod.mk.injEq] at hk
      exact Or.inl hk.2.2
    have hcont : ∀ s s',
        (∀ c t X, (c, t, X) ∈ s.pq → X = start ∨ (alGet s.prev X).isSome) →
        cstep g cabin start dest s = .cont s' →
        ∀ c t X, (c, t, X) ∈ s'.pq → X = start ∨ (alGet s'.prev X).isSome := by
      intro s s' hqp hstep
      rcases cstep_char g cabin start dest s _ hstep with ⟨_, hout⟩ |
        ⟨c0, t0', a0, rest, hpop, hvis, hout⟩ |
        ⟨c0, t0', a0, rest, hpop, hvis, hdest, hout⟩ |
        ⟨c0, t0', a0, rest, hpop, hvis, hdest, ⟨s2, hrel, hout⟩ | ⟨hrel, hout⟩⟩
      · cases hout
      · injection hout with hout
        subst hout
        intro c t X hk
        have hperm := (popMinC_some hpop).2.2
        exact hqp c t X (hperm.symm.mem_iff.mp (List.mem_cons_of_mem _ hk))
      · cases hout
      · injection hout with hout
        subst hout
        have hperm := (popMinC_some hpop).2.2
        set s1 : CState := { s with pq := rest, visited := (a0, c0) :: s.visited, log := s.log ++ [(a0, c0)] } with hs1
        have hbase : ∀ c t X, (c, t, X) ∈ s1.pq → X = start ∨ (alGet s1.prev X).isSome := by
          intro c t X hk
          rw [hs1] at hk
          exact hqp c t X (hperm.symm.mem_iff.mp (List.mem_cons_of_mem _ hk))
        exact relaxListC_queuePrev cabin start c0 t0' a0 (graphGet g a0) _ _ hrel hbase
      · cases hout
    have hdone : ∀ s r s',
        (∀ c t X, (c, t, X) ∈ s.pq → X = start ∨ (alGet s.prev X).isSome) →
        cstep g cabin start dest s = .done r s' →
        ∀ l2, r = .found l2 → l2 ≠ [] := by
      intro s r s' hqp hstep
      rcases cstep_char g cabin start dest s _ hstep with ⟨_, hout⟩ |
        ⟨c0, t0', a0, rest, hpop, hvis, hout⟩ |
        ⟨c0, t0', a0, rest, hpop, hvis, hdest, hout⟩ |
        ⟨c0, t0', a0, rest, hpop, hvis, hdest, ⟨s2, hrel, hout⟩ | ⟨hrel, hout⟩⟩
      · injection hout with hr hs
        subst hr
        intro l2 hl2
        cases hl2
      · cases hout
      · injection hout with hr hs
        subst hr
        subst hdest
        have hmem := (popMinC_some hpop).1
        rcases hqp c0 t0' a0 hmem with hstart | hsome
        · exact absurd hstart.symm hne
        · intro l2 hl2
          exact reconstruct_found_nonempty s.prev a0 hsome l2 hl2
      · cases hout
      · injection hout with hr hs
        subst hr
        intro l2 hl2
        cases hl2
    exact runSteps_inv (cstep g cabin start dest) _ _ hcont hdone n (cInit start t0)
      (.found legs) sF hinit hrun legs rfl

/-- Witness for C4 (amended) at the spec's scenario graph with distinct
endpoints. -/
theorem claim4_witness : [legAB, legBC2] ≠ ([] : List Flight) :=
  (claim4_nonempty_amended gScen "A" "C" 420 (by decide)).1 [legAB, legBC2] ⟨5, _, rfl⟩

/-! ### Termination measure lemmas (towards C5) -/

theorem graphGet_sub_allFlights (g : Graph) (a : String) :
    ∀ f, f ∈ graphGet g a → f ∈ allFlights g := by
  induction g with
  | nil => intro f hf; simp [graphGet] at hf
  | cons p rest ih =>
    obtain ⟨b, fs⟩ := p
    intro f hf
    by_cases hb : b = a
    · simp only [graphGet, if_pos hb] at hf
      simp [allFlights, hf]
    · simp only [graphGet, if_neg hb] at hf
      have := ih f hf
      simp [allFlights] at this ⊢
      exact Or.inr this

theorem alGet_alSet_none_rev {β : Type} (l : List (String × β)) (k a : String) (v : β)
    (h : alGet (alSet l k v) a = Option.none) : alGet l a = Option.none := by
  by_cases hak : a = k
  · subst hak
    rw [alGet_alSet_self] at h
    cases h
  · rwa [alGet_alSet_ne l k a v hak] at h

theorem unlabeled_alSet_new (U : List String) (dist : List (String × Nat)) (k : String)
    (v : Nat) (hk : k ∈ U) (hnone : alGet dist k = Option.none) :
    unlabeledCount U (alSet dist k v) < unlabeledCount U dist := by
  unfold unlabeledCount
  refine countP_lt_of_flip U _ _ k hk ?_ ?_ ?_
  · rw [hnone]; rfl
  · rw [alGet_alSet_self]; rfl
  · intro a _ hp
    have : alGet (alSet dist k v) a = Option.none := by
      rcases hget : alGet (alSet dist k v) a with _ | w
      · rfl
      · rw [hget] at hp; cases hp
    rw [alGet_alSet_none_rev dist k a v this]
    rfl

theorem unlabeled_alSet_old (U : List String) (dist : List (String × Nat)) (k : String)
    (v : Nat) (hsome : (alGet dist k).isSome) :
    unlabeledCount U (alSet dist k v) = unlabeledCount U dist := by
  unfold unlabeledCount
  refine countP_congr_mem U _ _ ?_
  intro a _
  by_cases hak : a = k
  · subst hak
    rw [alGet_alSet_self]
    rcases hget : alGet dist a with _ | w
    · rw [hget] at hsome; cases hsome
    · rfl
  · rw [alGet_alSet_ne dist k a v hak]

theorem lex2_trans {a1 a2 b1 b2 c1 c2 : Nat}
    (h1 : a1 < b1 ∨ (a1 = b1 ∧ a2 < b2)) (h2 : b1 < c1 ∨ (b1 = c1 ∧ b2 < c2)) :
    a1 < c1 ∨ (a1 = c1 ∧ a2 < c2) := by omega

theorem relaxListE_measure (U : List String) (start : String) (curTime : Nat)
    (airport : String) :
    ∀ fs (s : EState), (∀ f ∈ fs, f.dest ∈ U) →
      relaxListE start curTime airport fs s = s ∨
      (unlabeledCount U (relaxListE start curTime airport fs s).dist <
          unlabeledCount U s.dist ∨
       (unlabeledCount U (relaxListE start curTime airport fs s).dist =
          unlabeledCount U s.dist ∧
        valSum (relaxListE start curTime airport fs s).dist < valSum s.dist)) := by
  intro fs
  induction fs with
  | nil => intro s _; exact Or.inl rfl
  | cons f rest ih =>
    intro s hU
    obtain ⟨s1, heq, hcases⟩ := relaxListE_cons_char start curTime airport f rest s
    rw [heq]
    have hUrest : ∀ f ∈ rest, f.dest ∈ U := fun f hf => hU f (List.mem_cons_of_mem _ hf)
    have hfU : f.dest ∈ U := hU f (List.mem_cons_self f rest)
    rcases hcases with ⟨_, h1⟩ | ⟨_, hd, h1⟩ | ⟨_, ⟨d, hd, hlt⟩, h1⟩ | ⟨_, _, h1⟩ <;> rw [h1]
    · exact ih s hUrest
    · have hdec : unlabeledCount U (eUpd s f).dist < unlabeledCount U s.dist := by
        rw [eUpd_dist]
        exact unlabeled_alSet_new U s.dist f.dest f.arrive hfU hd
      rcases ih (eUpd s f) hUrest with hsame | hrec
      · rw [hsame]
        exact Or.inr (Or.inl hdec)
      · exact Or.inr (lex2_trans hrec (Or.inl hdec))
    · have hcnt : unlabeledCount U (eUpd s f).dist = unlabeledCount U s.dist := by
        rw [eUpd_dist]
        exact unlabeled_alSet_old U s.dist f.dest f.arrive (by rw [hd]; rfl)
      have hsum : valSum (eUpd s f).dist < valSum s.dist := by
        rw [eUpd_dist]
        have := valSum_alSet_get s.dist f.dest f.arrive d hd
        omega
      rcases ih (eUpd s f) hUrest with hsame | hrec
      · rw [hsame]
        exact Or.inr (Or.inr ⟨hcnt, hsum⟩)
      · exact Or.inr (lex2_trans hrec (Or.inr ⟨hcnt, hsum⟩))
    · exact ih s hUrest

theorem relaxListE_vislog (start : String) (curTime : Nat) (airport : String) :
    ∀ fs (s : EState),
      (relaxListE start curTime airport fs s).visited = s.visited ∧
      (relaxListE start curTime airport fs s).log = s.log := by
  intro fs
  induction fs with
  | nil => intro s; exact ⟨rfl, rfl⟩
  | cons f rest ih =>
    intro s
    obtain ⟨s1, heq, hcases⟩ := relaxListE_cons_char start curTime airport f rest s
    rw [heq]
    have hupd : s1 = s ∨ s1 = eUpd s f := by
      rcases hcases with ⟨_, h⟩ | ⟨_, _, h⟩ | ⟨_, _, h⟩ | ⟨_, _, h⟩
      · exact Or.inl h
      · exact Or.inr h
      · exact Or.inr h
      · exact Or.inl h
    rcases hupd with h1 | h1 <;> rw [h1]
    · exact ih s
    · obtain ⟨h1, h2⟩ := ih (eUpd s f)
      exact ⟨by rw [h1, eUpd_visited], by rw [h2, eUpd_log]⟩

theorem estep_decrease (g : Graph) (start dest : String) (s s' : EState)
    (h : estep g start dest s = .cont s') :
    lex3 (eMeasure g start s') (eMeasure g start s) := by
  rcases estep_char g start dest s _ h with ⟨_, hout⟩ |
    ⟨k0, a0, rest, hpop, hvis, hout⟩ |
    ⟨k0, a0, rest, hpop, hvis, hdest, hout⟩ |
    ⟨k0, a0, rest, hpop, hvis, hdest, hout⟩
  · cases hout
  · injection hout with hout
    subst hout
    have hlen : s.pq.length = rest.length + 1 := by
      have := (popMinE_some hpop).2.2.length_eq
      simpa using this
    have hgoal : rest.length < s.pq.length := by omega
    exact Or.inr ⟨rfl, Or.inr ⟨rfl, hgoal⟩⟩
  · cases hout
  · injection hout with hout
    subst hout
    set s1 : EState := { s with pq := rest, visited := a0 :: s.visited, log := s.log ++ [a0] } with hs1
    have hU : ∀ f ∈ graphGet g a0, f.dest ∈ univList g start := by
      intro f hf
      have := graphGet_sub_allFlights g a0 f hf
      simp only [univList, List.mem_cons]
      right
      exact List.mem_map.mpr ⟨f, this, rfl⟩
    have hlen : s.pq.length = rest.length + 1 := by
      have := (popMinE_some hpop).2.2.length_eq
      simpa using this
    rcases relaxListE_measure (univList g start) start k0 a0 (graphGet g a0) s1 hU with
      hsame | hdec
    · rw [hsame]
      have hgoal : s1.pq.length < s.pq.length := by
        rw [hs1]
        simpa using by omega
      exact Or.inr ⟨rfl, Or.inr ⟨rfl, hgoal⟩⟩
    · have hd1 : s1.dist = s.dist := by rw [hs1]
      rw [hd1] at hdec
      rcases hdec with h | ⟨h1, h2⟩
      · exact Or.inl h
      · exact Or.inr ⟨h1, Or.inl h2⟩

theorem erun_total (g : Graph) (start dest : String) :
    ∀ s : EState, ∃ n out, erun g start dest n s = some out := by
  have main : ∀ c1 c2 c3 (s : EState),
      unlabeledCount (univList g start) s.dist = c1 → valSum s.dist = c2 →
      s.pq.length = c3 → ∃ n out, erun g start dest n s = some out := by
    intro c1
    induction c1 using Nat.strong_induction_on with
    | _ c1 ih1 =>
      intro c2
      induction c2 using Nat.strong_induction_on with
      | _ c2 ih2 =>
        intro c3
        induction c3 using Nat.strong_induction_on with
        | _ c3 ih3 =>
          intro s h1 h2 h3
          cases hstep : estep g start dest s with
          | done r s2 =>
            exact ⟨1, (r, s2), by simp [erun, runSteps, hstep]⟩
          | cont s2 =>
            have hdec := estep_decrease g start dest s s2 hstep
            simp only [lex3, eMeasure] at hdec
            have hnext : ∃ n out, erun g start dest n s2 = some out := by
              rcases hdec with hlt | ⟨heq1, hlt | ⟨heq2, hlt3⟩⟩
              · exact ih1 _ (h1 ▸ hlt) _ _ s2 rfl rfl rfl
              · exact ih2 _ (h2 ▸ hlt) _ s2 (heq1.trans h1) rfl rfl
              · exact ih3 _ (h3 ▸ hlt3) s2 (heq1.trans h1) (heq2.trans h2) rfl
            obtain ⟨n, out, hn⟩ := hnext
            exact ⟨n + 1, out, by simp [erun, runSteps, hstep]; exact hn⟩
  intro s
  exact main _ _ _ s rfl rfl rfl

theorem relaxListC_measure (U : List String) (cabin start : String) (cost arrTime : Nat)
    (airport : String) :
    ∀ fs (s s2 : CState), relaxListC cabin start cost arrTime airport fs s = .ok s2 →
      (∀ f ∈ fs, f.dest ∈ U) →
      s2 = s ∨
      (unlabeledCount U s2.dist < unlabeledCount U s.dist ∨
       (unlabeledCount U s2.dist = unlabeledCount U s.dist ∧ valSum s2.dist < valSum s.dist)) := by
  intro fs
  induction fs with
  | nil =>
    intro s s2 hok _
    simp only [relaxListC] at hok
    cases hok
    exact Or.inl rfl
  | cons f rest ih =>
    intro s s2 hok hU
    have hUrest : ∀ f ∈ rest, f.dest ∈ U := fun f hf => hU f (List.mem_cons_of_mem _ hf)
    have hfU : f.dest ∈ U := hU f (List.mem_cons_self f rest)
    rcases relaxListC_cons_char cabin start cost arrTime airport f rest s with
      ⟨_, heq⟩ | ⟨_, _, heq⟩ | ⟨p, s1, _, _, heq, hcases⟩
    · rw [heq] at hok
      exact ih s s2 hok hUrest
    · rw [heq] at hok
      cases hok
    · rw [heq] at hok
      rcases hcases with ⟨hd, h1⟩ | ⟨⟨d, hd, hlt⟩, h1⟩ | ⟨⟨d, hd, hlt⟩, h1⟩
      · subst h1
        have hdec : unlabeledCount U (cUpd s f (cost + p)).dist < unlabeledCount U s.dist := by
          rw [cUpd_dist]
          exact unlabeled_alSet_new U s.dist f.dest (cost + p) hfU hd
        rcases ih _ s2 hok hUrest with h | hrec
        · rw [h]
          exact Or.inr (Or.inl hdec)
        · exact Or.inr (lex2_trans hrec (Or.inl hdec))
      · subst h1
        have hcnt : unlabeledCount U (cUpd s f (cost + p)).dist = unlabeledCount U s.dist := by
          rw [cUpd_dist]
          exact unlabeled_alSet_old U s.dist f.dest (cost + p) (by rw [hd]; rfl)
        have hsum : valSum (cUpd s f (cost + p)).dist < valSum s.dist := by
          rw [cUpd_dist]
          have := valSum_alSet_get s.dist f.dest (cost + p) d hd
          omega
        rcases ih _ s2 hok hUrest with h | hrec
        · rw [h]
          exact Or.inr (Or.inr ⟨hcnt, hsum⟩)
        · exact Or.inr (lex2_trans hrec (Or.inr ⟨hcnt, hsum⟩))
      · rw [h1] at hok
        exact ih s s2 hok hUrest

theorem relaxListC_vislog (cabin start : String) (cost arrTime : Nat) (airport : String) :
    ∀ fs (s s2 : CState), relaxListC cabin start cost arrTime airport fs s = .ok s2 →
      s2.visited = s.visited ∧ s2.log = s.log := by
  intro fs
  induction fs with
  | nil =>
    intro s s2 hok
    simp only [relaxListC] at hok
    cases hok
    exact ⟨rfl, rfl⟩
  | cons f rest ih =>
    intro s s2 hok
    rcases relaxListC_cons_char cabin start cost arrTime airport f rest s with
      ⟨_, heq⟩ | ⟨_, _, heq⟩ | ⟨p, s1, _, _, heq, hcases⟩
    · rw [heq] at hok
      exact ih s s2 hok
    · rw [heq] at hok
      cases hok
    · rw [heq] at hok
      have hupd : s1 = s ∨ s1 = cUpd s f (cost + p) := by
        rcases hcases with ⟨_, h⟩ | ⟨_, h⟩ | ⟨_, h⟩
        · exact Or.inr h
        · exact Or.inr h
        · exact Or.inl h
      rcases hupd with h1 | h1 <;> rw [h1] at hok
      · exact ih s s2 hok
      · obtain ⟨h2, h3⟩ := ih _ s2 hok
        exact ⟨by rw [h2, cUpd_visited], by rw [h3, cUpd_log]⟩

theorem relaxListC_ok (cabin : String)
    (hcab : cabin = "economy" ∨ cabin = "business" ∨ cabin = "first")
    (start : String) (cost arrTime : Nat) (airport : String) :
    ∀ fs (s : CState), ∃ s2, relaxListC cabin start cost arrTime airport fs s = .ok s2 := by
  intro fs
  induction fs with
  | nil => intro s; exact ⟨s, rfl⟩
  | cons f rest ih =>
    intro s
    rcases relaxListC_cons_char cabin start cost arrTime airport f rest s with
      ⟨_, heq⟩ | ⟨_, hp, heq⟩ | ⟨p, s1, _, _, heq, _⟩
    · rw [heq]
      exact ih s
    · exfalso
      rcases hcab with rfl | rfl | rfl
      · simp [price_for] at hp
      · simp [price_for] at hp
      · simp [price_for] at hp
    · rw [heq]
      exact ih s1

theorem cstep_decrease (g : Graph) (cabin start dest : String) (s s' : CState)
    (h : cstep g cabin start dest s = .cont s') :
    lex3 (cMeasure g start s') (cMeasure g start s) := by
  rcases cstep_char g cabin start dest s _ h with ⟨_, hout⟩ |
    ⟨c0, t0', a0, rest, hpop, hvis, hout⟩ |
    ⟨c0, t0', a0, rest, hpop, hvis, hdest, hout⟩ |
    ⟨c0, t0', a0, rest, hpop, hvis, hdest, ⟨s2, hrel, hout⟩ | ⟨hrel, hout⟩⟩
  · cases hout
  · injection hout with hout
    subst hout
    have hlen : s.pq.length = rest.length + 1 := by
      have := (popMinC_some hpop).2.2.length_eq
      simpa using this
    have hgoal : rest.length < s.pq.length := by omega
    exact Or.inr ⟨rfl, Or.inr ⟨rfl, hgoal⟩⟩
  · cases hout
  · injection hout with hout
    subst hout
    set s1 : CState := { s with pq := rest, visited := (a0, c0) :: s.visited, log := s.log ++ [(a0, c0)] } with hs1
    have hU : ∀ f ∈ graphGet g a0, f.dest ∈ univList g start := by
      intro f hf
      have := graphGet_sub_allFlights g a0 f hf
      simp only [univList, List.mem_cons]
      right
      exact List.mem_map.mpr ⟨f, this, rfl⟩
    have hlen : s.pq.length = rest.length + 1 := by
      have := (popMinC_some hpop).2.2.length_eq
      simpa using this
    rcases relaxListC_measure (univList g start) cabin start c0 t0' a0 (graphGet g a0) s1 _
        hrel hU with hsame | hdec
    · rw [hsame]
      have hgoal : s1.pq.length < s.pq.length := by
        rw [hs1]
        simpa using by omega
      exact Or.inr ⟨rfl, Or.inr ⟨rfl, hgoal⟩⟩
    · have hd1 : s1.dist = s.dist := by rw [hs1]
      rw [hd1] at hdec
      rcases hdec with h2 | ⟨h1, h2⟩
      · exact Or.inl h2
      · exact Or.inr ⟨h1, Or.inl h2⟩
  · cases hout

theorem crun_total (g : Graph) (cabin start dest : String) :
    ∀ s : CState, ∃ n out, crun g cabin start dest n s = some out := by
  have main : ∀ c1 c2 c3 (s : CState),
      unlabeledCount (univList g start) s.dist = c1 → valSum s.dist = c2 →
      s.pq.length = c3 → ∃ n out, crun g cabin start dest n s = some out := by
    intro c1
    induction c1 using Nat.strong_induction_on with
    | _ c1 ih1 =>
      intro c2
      induction c2 using Nat.strong_induction_on with
      | _ c2 ih2 =>
        intro c3
        induction c3 using Nat.strong_induction_on with
        | _ c3 ih3 =>
          intro s h1 h2 h3
          cases hstep : cstep g cabin start dest s with
          | done r s2 =>
            exact ⟨1, (r, s2), by simp [crun, runSteps, hstep]⟩
          | cont s2 =>
            have hdec := cstep_decrease g cabin start dest s s2 hstep
            simp only [lex3, cMeasure] at hdec
            have hnext : ∃ n out, crun g cabin start dest n s2 = some out := by
              rcases hdec with hlt | ⟨heq1, hlt | ⟨heq2, hlt3⟩⟩
              · exact ih1 _ (h1 ▸ hlt) _ _ s2 rfl rfl rfl
              · exact ih2 _ (h2 ▸ hlt) _ s2 (heq1.trans h1) rfl rfl
              · exact ih3 _ (h3 ▸ hlt3) s2 (heq1.trans h1) (heq2.trans h2) rfl
            obtain ⟨n, out, hn⟩ := hnext
            exact ⟨n + 1, out, by simp [crun, runSteps, hstep]; exact hn⟩
  intro s
  exact main _ _ _ s rfl rfl rfl

theorem reconstruct_ne_none (prev : List (String × Flight)) (dest : String) :
    reconstruct_itinerary prev dest ≠ .none := by
  unfold reconstruct_itinerary
  cases haux : reconAux prev prev.length dest [] <;> simp

theorem reconstruct_ne_raised (prev : List (String × Flight)) (dest : String) :
    reconstruct_itinerary prev dest ≠ .raised := by
  unfold reconstruct_itinerary
  cases haux : reconAux prev prev.length dest [] <;> simp

theorem erun_facts (g : Graph) (start dest : String) (t0 : Nat) :
    ∀ n r sF, erun g start dest n (eInit start t0) = some (r, sF) →
      sF.log.Nodup ∧ (r = .none → sF.pq = []) ∧ (r ≠ .none → dest ∈ sF.visited) := by
  intro n r sF hrun
  refine runSteps_inv (estep g start dest)
    (fun s => s.visited = s.log.reverse ∧ s.visited.Nodup)
    (fun r sF => sF.log.Nodup ∧ (r = .none → sF.pq = []) ∧ (r ≠ .none → dest ∈ sF.visited))
    ?_ ?_ n (eInit start t0) r sF ⟨rfl, List.nodup_nil⟩ hrun
  · intro s s' hinv hstep
    obtain ⟨hvl, hnd⟩ := hinv
    rcases estep_char g start dest s _ hstep with ⟨_, hout⟩ |
      ⟨k0, a0, rest, hpop, hvis, hout⟩ |
      ⟨k0, a0, rest, hpop, hvis, hdest, hout⟩ |
      ⟨k0, a0, rest, hpop, hvis, hdest, hout⟩
    · cases hout
    · injection hout with hout
      subst hout
      exact ⟨hvl, hnd⟩
    · cases hout
    · injection hout with hout
      subst hout
      set s1 : EState := { s with pq := rest, visited := a0 :: s.visited, log := s.log ++ [a0] } with hs1
      obtain ⟨hv, hl⟩ := relaxListE_vislog start k0 a0 (graphGet g a0) s1
      constructor
      · rw [hv, hl, hs1]
        simp only [List.reverse_append, List.reverse_singleton, List.singleton_append]
        rw [← hvl]
      · rw [hv, hs1]
        exact List.Nodup.cons hvis hnd
  · intro s r0 s' hinv hstep
    obtain ⟨hvl, hnd⟩ := hinv
    rcases estep_char g start dest s _ hstep with ⟨hpq, hout⟩ |
      ⟨k0, a0, rest, hpop, hvis, hout⟩ |
      ⟨k0, a0, rest, hpop, hvis, hdest, hout⟩ |
      ⟨k0, a0, rest, hpop, hvis, hdest, hout⟩
    · injection hout with hr hs
      subst hr
      subst hs
      refine ⟨?_, fun _ => popMinE_none hpq, fun hne => absurd rfl hne⟩
      rw [hvl] at hnd
      exact List.nodup_reverse.mp hnd
    · cases hout
    · injection hout with hr hs
      subst hr
      subst hs
      subst hdest
      refine ⟨?_, ?_, ?_⟩
      · rw [← List.nodup_reverse]
        simp only [List.reverse_append, List.reverse_singleton, List.singleton_append]
        rw [← hvl]
        exact List.Nodup.cons hvis hnd
      · intro hnone
        exact absurd hnone (reconstruct_ne_none s.prev a0)
      · intro _
        exact List.mem_cons_self a0 s.visited
    · cases hout

theorem crun_facts (g : Graph) (cabin start dest : String) (t0 : Nat) :
    ∀ n r sF, crun g cabin start dest n (cInit start t0) = some (r, sF) →
      sF.log.Nodup ∧ (r = .none → sF.pq = []) ∧
      (r ≠ .none → r ≠ .raised → dest ∈ sF.visited.map Prod.fst) := by
  intro n r sF hrun
  refine runSteps_inv (cstep g cabin start dest)
    (fun s => s.visited = s.log.reverse ∧ s.visited.Nodup)
    (fun r sF => sF.log.Nodup ∧ (r = .none → sF.pq = []) ∧
      (r ≠ .none → r ≠ .raised → dest ∈ sF.visited.map Prod.fst))
    ?_ ?_ n (cInit start t0) r sF ⟨rfl, List.nodup_nil⟩ hrun
  · intro s s' hinv hstep
    obtain ⟨hvl, hnd⟩ := hinv
    rcases cstep_char g cabin start dest s _ hstep with ⟨_, hout⟩ |
      ⟨c0, t0', a0, rest, hpop, hvis, hout⟩ |
      ⟨c0, t0', a0, rest, hpop, hvis, hdest, hout⟩ |
      ⟨c0, t0', a0, rest, hpop, hvis, hdest, ⟨s2, hrel, hout⟩ | ⟨hrel, hout⟩⟩
    · cases hout
    · injection hout with hout
      subst hout
      exact ⟨hvl, hnd⟩
    · cases hout
    · injection hout with hout
      subst hout
      obtain ⟨hv, hl⟩ := relaxListC_vislog cabin start c0 t0' a0 (graphGet g a0) _ _ hrel
      constructor
      · rw [hv, hl]
        simp only [List.reverse_append, List.reverse_singleton, List.singleton_append]
        rw [← hvl]
      · rw [hv]
        exact List.Nodup.cons hvis hnd
    · cases hout
  · intro s r0 s' hinv hstep
    obtain ⟨hvl, hnd⟩ := hinv
    rcases cstep_char g cabin start dest s _ hstep with ⟨hpq, hout⟩ |
      ⟨c0, t0', a0, rest, hpop, hvis, hout⟩ |
      ⟨c0, t0', a0, rest, hpop, hvis, hdest, hout⟩ |
      ⟨c0, t0', a0, rest, hpop, hvis, hdest, ⟨s2, hrel, hout⟩ | ⟨hrel, hout⟩⟩
    · injection hout with hr hs
      subst hr
      subst hs
      refine ⟨?_, fun _ => popMinC_none hpq, fun hne _ => absurd rfl hne⟩
      rw [hvl] at hnd
      exact List.nodup_reverse.mp hnd
    · cases hout
    · injection hout with hr hs
      subst hr
      subst hs
      subst hdest
      refine ⟨?_, ?_, ?_⟩
      · rw [← List.nodup_reverse]
        simp only [List.reverse_append, List.reverse_singleton, List.singleton_append]
        rw [← hvl]
        exact List.Nodup.cons hvis hnd
      · intro hnone
        exact absurd hnone (reconstruct_ne_none s.prev a0)
      · intro _ _
        exact List.mem_map.mpr ⟨(a0, c0), List.mem_cons_self _ _, rfl⟩
    · cases hout
    · injection hout with hr hs
      subst hr
      subst hs
      refine ⟨?_, ?_, ?_⟩
      · rw [← List.nodup_reverse]
        simp only [List.reverse_append, List.reverse_singleton, List.singleton_append]
        rw [← hvl]
        exact List.Nodup.cons hvis hnd
      · intro hnone
        cases hnone
      · intro _ hraised
        exact absurd rfl hraised

theorem crun_no_raise (g : Graph) (cabin : String)
    (hcab : cabin = "economy" ∨ cabin = "business" ∨ cabin = "first")
    (start dest : String) :
    ∀ n s r sF, crun g cabin start dest n s = some (r, sF) → r ≠ .raised := by
  intro n s r sF hrun
  refine runSteps_inv (cstep g cabin start dest) (fun _ => True)
    (fun r _ => r ≠ .raised) ?_ ?_ n s r sF trivial hrun
  · intro _ _ _ _
    trivial
  · intro s0 r0 s' _ hstep
    rcases cstep_char g cabin start dest s0 _ hstep with ⟨_, hout⟩ |
      ⟨c0, t0', a0, rest, hpop, hvis, hout⟩ |
      ⟨c0, t0', a0, rest, hpop, hvis, hdest, hout⟩ |
      ⟨c0, t0', a0, rest, hpop, hvis, hdest, ⟨s2, hrel, hout⟩ | ⟨hrel, hout⟩⟩
    · injection hout with hr hs
      subst hr
      intro hcon
      cases hcon
    · cases hout
    · injection hout with hr hs
      subst hr
      exact reconstruct_ne_raised s0.prev dest
    · cases hout
    · exfalso
      obtain ⟨s3, hok⟩ := relaxListC_ok cabin hcab start c0 t0' a0 (graphGet g a0) _
      rw [hok] at hrel
      cases hrel

/-- C5 (amended): on every finite route graph, both searches terminate,
ending either with the destination finalized and a result returned or with
the priority queue exhausted.  In `find_earliest_itinerary` each airport is
finalized at most once; in `find_cheapest_itinerary` each `(airport, cost)`
pair is finalized at most once, and (for a recognized cabin) the run never
raises — but the same airport can be finalized under two different costs,
so the number of relaxations is not bounded by the number of flight edges
(see the counterexample). -/
theorem claim5_termination_amended (g : Graph) (start dest : String) (t0 : Nat)
    (cabin : String) (hcab : cabin = "economy" ∨ cabin = "business" ∨ cabin = "first") :
    (∃ n r sF, erun g start dest n (eInit start t0) = some (r, sF) ∧ sF.log.Nodup ∧
      (r = .none → sF.pq = []) ∧ (r ≠ .none → dest ∈ sF.visited)) ∧
    (∃ n r sF, crun g cabin start dest n (cInit start t0) = some (r, sF) ∧ r ≠ .raised ∧
      sF.log.Nodup ∧ (r = .none → sF.pq = []) ∧
      (r ≠ .none → dest ∈ sF.visited.map Prod.fst)) := by
  constructor
  · obtain ⟨n, ⟨r, sF⟩, hrun⟩ := erun_total g start dest (eInit start t0)
    obtain ⟨h1, h2, h3⟩ := erun_facts g start dest t0 n r sF hrun
    exact ⟨n, r, sF, hrun, h1, h2, h3⟩
  · obtain ⟨n, ⟨r, sF⟩, hrun⟩ := crun_total g cabin start dest (cInit start t0)
    obtain ⟨h1, h2, h3⟩ := crun_facts g cabin start dest t0 n r sF hrun
    have hnr := crun_no_raise g cabin hcab start dest n (cInit start t0) r sF hrun
    exact ⟨n, r, sF, hrun, hnr, h1, h2, fun hne => h3 hne hnr⟩

/-- Witness for C5 (amended) at the spec's scenario graph and the economy
cabin. -/
theorem claim5_witness :
    (∃ n r sF, erun gScen "A" "C" n (eInit "A" 420) = some (r, sF) ∧ sF.log.Nodup ∧
      (r = .none → sF.pq = []) ∧ (r ≠ .none → "C" ∈ sF.visited)) ∧
    (∃ n r sF, crun gScen "economy" "A" "C" n (cInit "A" 420) = some (r, sF) ∧
      r ≠ .raised ∧ sF.log.Nodup ∧ (r = .none → sF.pq = []) ∧
      (r ≠ .none → "C" ∈ sF.visited.map Prod.fst)) :=
  claim5_termination_amended gScen "A" "C" 420 "economy" (Or.inl rfl)

/-! ### Feasible-chain lemmas and the frontier bound (towards C2, C10) -/

theorem validGraph_get (g : Graph) (hg : ValidGraph g) :
    ∀ a f, f ∈ graphGet g a → f.depart < f.arrive := by
  induction g with
  | nil => intro a f hf; simp [graphGet] at hf
  | cons p rest ih =>
    obtain ⟨b, fs⟩ := p
    intro a f hf
    by_cases hb : b = a
    · simp only [graphGet, if_pos hb] at hf
      exact hg (b, fs) (List.mem_cons_self _ _) f hf
    · simp only [graphGet, if_neg hb] at hf
      exact ih (fun p hp => hg p (List.mem_cons_of_mem _ hp)) a f hf

theorem arrive_time_cons_getD (f : Flight) (rest : List Flight) (tc : Nat) :
    (arrive_time (f :: rest)).getD tc = (arrive_time rest).getD f.arrive := by
  cases rest with
  | nil => simp [arrive_time]
  | cons f2 rest2 =>
    simp only [arrive_time]
    cases hx : (f2 :: rest2).getLast? with
    | none => exact absurd hx (by simp)
    | some x => simp [hx]

theorem last_dest_cons_getD (f : Flight) (rest : List Flight) (frm : String) :
    (last_dest (f :: rest)).getD frm = (last_dest rest).getD f.dest := by
  cases rest with
  | nil => simp [last_dest]
  | cons f2 rest2 =>
    simp only [last_dest]
    cases hx : (f2 :: rest2).getLast? with
    | none => exact absurd hx (by simp)
    | some x => simp [hx]

theorem chain_time_mono (g : Graph) (hg : ∀ a f, f ∈ graphGet g a → f.depart < f.arrive) :
    ∀ legs (frm : String) (minDep tc : Nat), tc ≤ minDep → legsChain g frm minDep legs →
      tc ≤ (arrive_time legs).getD tc := by
  intro legs
  induction legs with
  | nil => intro frm minDep tc h _; simpa [arrive_time] using le_refl tc
  | cons f rest ih =>
    intro frm minDep tc hle hchain
    obtain ⟨horig, hdep, hmem, hrest⟩ := hchain
    rw [arrive_time_cons_getD]
    have h1 : tc ≤ f.arrive := by
      have := hg frm f (horig ▸ hmem)
      omega
    have h2 : f.arrive ≤ (arrive_time rest).getD f.arrive :=
      ih f.dest (f.arrive + MIN_LAYOVER_MINUTES) f.arrive (by omega) hrest
    omega

theorem chainW (g : Graph) (start : String) (t0 : Nat) (s : EState)
    (hg : ∀ a f, f ∈ graphGet g a → f.depart < f.arrive)
    (hLB : ∀ X d, alGet s.dist X = some d → t0 ≤ d)
    (hJ : ∀ X, X ∈ s.visited → ∀ d, alGet s.dist X = some d → ∀ f, f ∈ graphGet g X →
      (if X = start then t0 else d + MIN_LAYOVER_MINUTES) ≤ f.depart →
      ∃ d2, alGet s.dist f.dest = some d2 ∧ d2 ≤ f.arrive) :
    ∀ legs (frm : String) (minDep dcur tcur : Nat),
      legsChain g frm minDep legs →
      alGet s.dist frm = some dcur →
      (if frm = start then t0 else dcur + MIN_LAYOVER_MINUTES) ≤ minDep →
      dcur ≤ tcur → tcur ≤ minDep →
      ∃ W dW, alGet s.dist W = some dW ∧
        dW ≤ (arrive_time legs).getD tcur ∧
        (W ∉ s.visited ∨ W = (last_dest legs).getD frm) := by
  intro legs
  induction legs with
  | nil =>
    intro frm minDep dcur tcur _ hfrm _ hdt _
    refine ⟨frm, dcur, hfrm, ?_, Or.inr ?_⟩
    · simpa [arrive_time] using hdt
    · simp [last_dest]
  | cons f rest ih =>
    intro frm minDep dcur tcur hchain hfrm hthr hdt htm
    obtain ⟨horig, hdep, hmem, hrest⟩ := hchain
    rw [arrive_time_cons_getD, last_dest_cons_getD]
    by_cases hv : frm ∈ s.visited
    · obtain ⟨d2, hd2, hd2le⟩ := hJ frm hv dcur hfrm f (horig ▸ hmem) (le_trans hthr hdep)
      have hvalid : f.depart < f.arrive := hg frm f (horig ▸ hmem)
      refine ih f.dest (f.arrive + MIN_LAYOVER_MINUTES) d2 f.arrive hrest hd2 ?_ hd2le
        (by omega)
      by_cases hds : f.dest = start
      · rw [if_pos hds]
        have := hLB f.dest d2 hd2
        omega
      · rw [if_neg hds]
        omega
    · refine ⟨frm, dcur, hfrm, ?_, Or.inl hv⟩
      have hvalid : f.depart < f.arrive := hg frm f (horig ▸ hmem)
      have h1 : f.arrive ≤ (arrive_time rest).getD f.arrive :=
        chain_time_mono g hg rest f.dest (f.arrive + MIN_LAYOVER_MINUTES) f.arrive
          (by omega) hrest
      omega

theorem countP_lt_length_of_mem {α : Type} (l : List α) (p : α → Bool) (x : α)
    (hx : x ∈ l) (hp : p x = false) : l.countP p < l.length := by
  induction l with
  | nil => simp at hx
  | cons y rest ih =>
    simp only [List.countP_cons, List.length_cons]
    rcases List.mem_cons.mp hx with hy | hy
    · subst hy
      have := List.countP_le_length (l := rest) (p := p)
      simp [hp]
      omega
    · have := ih hy
      rcases hyp : p y with _ | _ <;> simp [hyp] <;> omega

/-! ### Route graph construction (C6) -/

theorem graphGet_insertFlight (g : Graph) (f : Flight) (a : String) :
    graphGet (insertFlight g f) a = graphGet g a ++ if f.origin = a then [f] else [] := by
  induction g with
  | nil => simp [insertFlight, graphGet]
  | cons p rest ih =>
    obtain ⟨b, fs⟩ := p
    by_cases hb : b = f.origin
    · subst hb
      by_cases ha : f.origin = a
      · subst ha
        simp [insertFlight, graphGet]
      · simp [insertFlight, graphGet, ha]
    · by_cases ha : b = a
      · subst ha
        have hfa : ¬ f.origin = b := fun h => hb h.symm
        simp [insertFlight, graphGet, hb, hfa]
      · simp [insertFlight, graphGet, hb, ha, ih]

theorem graphGet_foldl (fs : List Flight) (g : Graph) (a : String) :
    graphGet (fs.foldl insertFlight g) a =
      graphGet g a ++ fs.filter (fun f => f.origin == a) := by
  induction fs generalizing g with
  | nil => simp
  | cons f rest ih =>
    simp only [List.foldl_cons, ih, graphGet_insertFlight, List.filter_cons]
    by_cases h : f.origin = a
    · simp [h, List.append_assoc]
    · simp [h, beq_eq_false_iff_ne.mpr h]

/-- C6: `build_graph` maps each airport code to exactly the input flights
whose origin is that code, by exact string match and in input order; an
airport with no outbound flights looks up to the empty list rather than an
error. -/
theorem claim6_build_graph_filter (flights : List Flight) (a : String) :
    graphGet (build_graph flights) a = flights.filter (fun f => f.origin == a) ∧
    ((∀ f ∈ flights, f.origin ≠ a) → graphGet (build_graph flights) a = []) := by
  have h : graphGet (build_graph flights) a = flights.filter (fun f => f.origin == a) := by
    have := graphGet_foldl flights [] a
    simpa [build_graph, graphGet] using this
  refine ⟨h, fun hnone => ?_⟩
  rw [h, List.filter_eq_nil_iff]
  intro f hf
  exact fun hbeq => hnone f hf (by simpa using hbeq)

/-- Witness for C6 at a concrete graph: an airport with no outbound flights
yields the empty list. -/
theorem claim6_witness : graphGet (build_graph [legAB, legBC2]) "Q" = [] :=
  (claim6_build_graph_filter [legAB, legBC2] "Q").2 (by decide)

/-! ### Cabin fare lookup (C7) -/

/-- C7: `price_for` is total over exactly the three recognized cabin tags,
returning the matching fare, and raises (`none`) on every other tag. -/
theorem claim7_price_for_total (fl : Flight) :
    price_for fl "economy" = some fl.economy ∧
    price_for fl "business" = some fl.business ∧
    price_for fl "first" = some fl.first ∧
    ∀ c : String, c ≠ "economy" → c ≠ "business" → c ≠ "first" →
      price_for fl c = Option.none := by
  refine ⟨rfl, ?_, ?_, ?_⟩
  · unfold price_for
    rw [if_neg (by decide), if_pos rfl]
  · unfold price_for
    rw [if_neg (by decide), if_neg (by decide), if_pos rfl]
  · intro c h1 h2 h3
    unfold price_for
    rw [if_neg h1, if_neg h2, if_neg h3]

/-- Witness for C7: an unrecognized tag raises, a recognized one returns the
matching fare. -/
theorem claim7_witness :
    price_for legAB "coach" = Option.none ∧ price_for legAB "economy" = some 100 :=
  ⟨(claim7_price_for_total legAB).2.2.2 "coach" (by decide) (by decide) (by decide),
   (claim7_price_for_total legAB).1⟩

/-! ### Loader errors (C8) -/

/-- C8 (code bug evidence): on a malformed row, the whitespace loader raises
an error carrying the 1-based row number, but the CSV loader raises a bare
`ValueError` with no row number at all, contradicting the claimed contract
that both loaders identify the offending row; neither returns a partial
flight list. -/
theorem claim8_csv_error_lacks_row :
    load_flights_csv ["origin,dest,flight_number,depart,arrive,economy,business,first",
        "AAA,BBB,F1,25:00,09:00,10,20,30"] = .error .bare ∧
    load_flights_txt ["AAA BBB F1 08:00 09:00 100 200 300",
        "AAA BBB F2 25:00 09:00 1 2 3"] = .error (.rowed 2) :=
  ⟨by decide, by decide⟩

/-! ### The cheapest search misbehaves (C1, C3, C5 counterexamples) -/

/-- C1 (code bug evidence): on `gBad` the cheapest search returns the
itinerary `[legAB2, legBC]`, which violates the layover feasibility
constraint (`legBC` departs at 260, long before `legAB2` arrives at 500),
even though the feasible itinerary `[legAB1, legBC]` exists.  The returned
total (11) undercuts the cheapest feasible total (21): a cheaper-but-
infeasible path is selected. -/
theorem claim1_cheapest_returns_infeasible :
    (crun gBad "economy" "A" "C" 10 (cInit "A" 0)).map Prod.fst =
      some (.found [legAB2, legBC]) ∧
    ¬ Feasible gBad "A" "C" 0 [legAB2, legBC] ∧
    Feasible gBad "A" "C" 0 [legAB1, legBC] ∧
    total_price [legAB2, legBC] "economy" = some 11 ∧
    total_price [legAB1, legBC] "economy" = some 21 := by
  refine ⟨by decide, by decide, by decide, by decide, by decide⟩

/-- C3 (code bug evidence): in the same run airport `B` is finalized twice
(once at cost 10, once at the stale cost 20), and the second, more expensive
pop performs the relaxation that labels `C` with 21 — even though `B`'s
optimal label is 10, so an optimal-cost relaxation of `B -> C` would have
yielded 11. -/
theorem claim3_airport_finalized_twice :
    (crun gBad "economy" "A" "C" 10 (cInit "A" 0)).map
        (fun p => ((p.2.log.map Prod.fst).count "B", alGet p.2.dist "B", alGet p.2.dist "C")) =
      some (2, some 10, some 21) := by decide

/-- C5 counterexample: the ghost log of the same cheapest run finalizes
airport `B` twice, refuting "each airport can be finalized at most once";
the run performs four relaxation rounds over a graph with three flight
edges. -/
theorem claim5_counterexample :
    (crun gBad "economy" "A" "C" 10 (cInit "A" 0)).map (fun p => p.2.log) =
      some [("A", 0), ("B", 10), ("B", 20), ("C", 21)] := by decide

/-! ### Present-but-empty itineraries (C2, C4 counterexamples) -/

/-- C2 counterexample: with a loop flight at `A` and the query `A -> A`, the
earliest search returns a present itinerary with no legs, which has no
arrival time at all, while a feasible itinerary (the loop flight, arriving
at 20) exists — so the returned itinerary's arrival time is not the minimum
feasible arrival. -/
theorem claim2_counterexample :
    EReturns gLoop "A" "A" 0 (.found []) ∧
    arrive_time ([] : List Flight) = Option.none ∧
    Feasible gLoop "A" "A" 0 [legLoop] :=
  ⟨⟨3, _, rfl⟩, rfl, by decide⟩

/-- C4 counterexample: when the start airport equals the destination, both
searches return a present itinerary whose flight sequence is empty instead
of `None` or a non-empty sequence. -/
theorem claim4_counterexample :
    EReturns ([] : Graph) "Z" "Z" 540 (.found []) ∧
    CReturns ([] : Graph) "economy" "Z" "Z" 540 (.found []) :=
  ⟨⟨2, _, rfl⟩, ⟨2, _, rfl⟩⟩

/-! ### Comparison reporter rendering (C9) -/

theorem intOfNat_fdiv60 (k : Nat) : ((k : Nat) : Int).fdiv 60 = ((k / 60 : Nat) : Int) := by
  rw [Int.fdiv_eq_ediv _ (by decide)]
  exact (Int.natCast_div _ _).symm

theorem intOfNat_emod60 (k : Nat) : (((k : Nat) : Int).emod 60).toNat = k % 60 := by
  have h : ((k : Nat) : Int).emod 60 = ((k % 60 : Nat) : Int) := (Int.ofNat_emod _ _).symm
  rw [h]
  exact Int.toNat_ofNat _

/-- C9: an absent-itinerary row renders the `N/A` sentinel in every numeric
column and carries the row's note; a present (non-empty) itinerary row
renders zero-padded `HH:MM` clock times converted back from
minutes-since-midnight, an `XhYYm` duration, the stop count, and the total
price for the row's cabin exactly when a cabin was specified, the sentinel
otherwise. -/
theorem claim9_reporter_rows (r : ComparisonRow) :
    (r.itinerary = Option.none →
      format_row r = some (r.mode ++ " | " ++ cabinDisp r.cabin ++
        " | N/A | N/A | N/A | N/A | N/A | " ++ r.note)) ∧
    (∀ legs dep arr, r.itinerary = some legs → depart_time legs = some dep →
      arrive_time legs = some arr → dep ≤ arr →
      ((r.cabin = Option.none →
        format_row r = some (r.mode ++ " | " ++ "N/A" ++ " | " ++
          (pad2 (dep / 60) ++ ":" ++ pad2 (dep % 60)) ++ " | " ++
          (pad2 (arr / 60) ++ ":" ++ pad2 (arr % 60)) ++ " | " ++
          (toString ((arr - dep) / 60) ++ "h" ++ pad2 ((arr - dep) % 60) ++ "m") ++
          " | " ++ toString (num_stops legs) ++ " | " ++ "N/A" ++ " | " ++ r.note)) ∧
       (∀ c tp, r.cabin = some c → c ≠ "" → total_price legs c = some tp →
        format_row r = some (r.mode ++ " | " ++ c ++ " | " ++
          (pad2 (dep / 60) ++ ":" ++ pad2 (dep % 60)) ++ " | " ++
          (pad2 (arr / 60) ++ ":" ++ pad2 (arr % 60)) ++ " | " ++
          (toString ((arr - dep) / 60) ++ "h" ++ pad2 ((arr - dep) % 60) ++ "m") ++
          " | " ++ toString (num_stops legs) ++ " | " ++ toString tp ++ " | " ++ r.note)))) := by
  constructor
  · intro h
    simp only [format_row, h]
  · intro legs dep arr hit hdep harr hle
    have hsub : (arr : Int) - (dep : Int) = ((arr - dep : Nat) : Int) := by omega
    have hfd : ((arr : Int) - (dep : Int)).fdiv 60 = (((arr - dep) / 60 : Nat) : Int) := by
      rw [hsub]
      exact intOfNat_fdiv60 (arr - dep)
    have hem : (((arr : Int) - (dep : Int)).emod 60).toNat = (arr - dep) % 60 := by
      rw [hsub]
      exact intOfNat_emod60 (arr - dep)
    have hts : toString (((arr - dep) / 60 : Nat) : Int) = toString ((arr - dep) / 60) := rfl
    constructor
    · intro hcab
      simp only [format_row, hit, hdep, harr, hcab, hfd, hem, hts, cabinDisp,
        format_time, Option.map_some']
    · intro c tp hcab hcne htp
      simp only [format_row, hit, hdep, harr, hcab, hfd, hem, hts, cabinDisp,
        format_time, htp, if_neg hcne, Option.map_some']

/-- Witness for C9: one absent row and one present row of the spec's
section-8 scenario, rendered concretely. -/
theorem claim9_witness :
    format_row ⟨"Earliest arrival", Option.none, Option.none, "(no valid itinerary)"⟩ =
      some "Earliest arrival | N/A | N/A | N/A | N/A | N/A | N/A | (no valid itinerary)" ∧
    format_row ⟨"Cheapest | economy", some "economy", some [legAB, legBC2], ""⟩ =
      some "Cheapest | economy | economy | 08:00 | 11:00 | 3h00m | 1 | 150 | " := by
  constructor
  · have h := (claim9_reporter_rows
      ⟨"Earliest arrival", Option.none, Option.none, "(no valid itinerary)"⟩).1 rfl
    exact h.trans (by decide)
  · have h := ((claim9_reporter_rows
      ⟨"Cheapest | economy", some "economy", some [legAB, legBC2], ""⟩).2
      [legAB, legBC2] 480 660 rfl rfl rfl (by decide)).2 "economy" 150 rfl
      (by decide) (by decide)
    exact h.trans (by decide)

/-! ### Graphs built by `build_graph` store flights under their origin -/

theorem graphGet_build_graph (fs : List Flight) (a : String) :
    graphGet (build_graph fs) a = fs.filter (fun f => f.origin == a) := by
  have := graphGet_foldl fs [] a
  simpa [build_graph, graphGet] using this

theorem build_graph_origin (fs : List Flight) (a : String) (f : Flight)
    (hf : f ∈ graphGet (build_graph fs) a) : f.origin = a := by
  rw [graphGet_build_graph] at hf
  have := List.of_mem_filter hf
  simpa using this

theorem build_graph_valid (fs : List Flight) (hv : ∀ f ∈ fs, f.depart < f.arrive)
    (a : String) (f : Flight) (hf : f ∈ graphGet (build_graph fs) a) :
    f.depart < f.arrive := by
  rw [graphGet_build_graph] at hf
  exact hv f (List.mem_of_mem_filter hf)

/-! ### Preservation of the earliest-search invariant through one update -/

theorem eUpd_EMid (g : Graph) (start : String) (t0 : Nat) (V0 : List String) (k0 : Nat)
    (a0 : String) (s : EState) (f : Flight)
    (hm : EMid g start t0 V0 k0 a0 s)
    (hfg : f ∈ graphGet g a0)
    (horig : f.origin = a0)
    (hva : f.depart < f.arrive)
    (hreq : (if a0 = start then k0 else k0 + MIN_LAYOVER_MINUTES) ≤ f.depart)
    (himp : alGet s.dist f.dest = Option.none ∨
      ∃ d, alGet s.dist f.dest = some d ∧ f.arrive < d) :
    EMid g start t0 V0 k0 a0 (eUpd s f) := by
  have hk0t0 : t0 ≤ k0 := hm.distLB a0 k0 hm.distA0
  have hk0dep : k0 ≤ f.depart := by
    by_cases h : a0 = start
    · rw [if_pos h] at hreq; exact hreq
    · rw [if_neg h] at hreq; exact le_trans (Nat.le_add_right k0 _) hreq
  have hk0arr : k0 < f.arrive := lt_of_le_of_lt hk0dep hva
  have hDvis : f.dest ∉ s.visited := by
    intro hv
    obtain ⟨d, hd, hdle⟩ := hm.frozenLe f.dest hv
    rcases himp with hn | ⟨d2, hd2, hlt⟩
    · rw [hn] at hd; cases hd
    · rw [hd] at hd2; injection hd2 with h2; omega
  have hDa0 : f.dest ≠ a0 := by
    intro h
    apply hDvis
    rw [h, hm.visitedEq]
    exact List.mem_cons_self _ _
  have hDstart : f.dest ≠ start := by
    intro h
    rcases himp with hn | ⟨d2, hd2, hlt⟩
    · rw [h, hm.startDist] at hn; cases hn
    · rw [h, hm.startDist] at hd2
      injection hd2 with h2
      omega
  constructor
  case distNodup =>
    rw [eUpd_dist]; exact nodup_keys_alSet _ _ _ hm.distNodup
  case prevNodup =>
    rw [eUpd_prev]; exact nodup_keys_alSet _ _ _ hm.prevNodup
  case startDist =>
    rw [eUpd_dist, alGet_alSet_ne _ _ _ _ (Ne.symm hDstart)]; exact hm.startDist
  case startPrev =>
    rw [eUpd_prev, alGet_alSet_ne _ _ _ _ (Ne.symm hDstart)]; exact hm.startPrev
  case distLB =>
    intro X d h
    rw [eUpd_dist] at h
    by_cases hX : X = f.dest
    · subst hX
      rw [alGet_alSet_self] at h
      injection h with h2
      omega
    · rw [alGet_alSet_ne _ _ _ _ hX] at h
      exact hm.distLB X d h
  case prevOfDist =>
    intro X d hXs h
    rw [eUpd_dist] at h
    rw [eUpd_prev]
    by_cases hX : X = f.dest
    · subst hX
      rw [alGet_alSet_self]
      rfl
    · rw [alGet_alSet_ne _ _ _ _ hX] at h
      rw [alGet_alSet_ne _ _ _ _ hX]
      exact hm.prevOfDist X d hXs h
  case prevSound =>
    intro X f2 h
    rw [eUpd_prev] at h
    by_cases hX : X = f.dest
    · subst hX
      rw [alGet_alSet_self] at h
      injection h with h2
      subst h2
      refine ⟨rfl, hDstart, by rw [horig]; exact hfg, ?_, ?_⟩
      · rw [eUpd_dist, alGet_alSet_self]
      · refine ⟨k0, ?_, hk0arr, ?_⟩
        · rw [eUpd_dist, horig, alGet_alSet_ne _ _ _ _ (Ne.symm hDa0)]
          exact hm.distA0
        · rw [horig]
          by_cases h0 : a0 = start
          · rw [if_pos h0]
            rw [if_pos h0] at hreq
            omega
          · rw [if_neg h0]
            rw [if_neg h0] at hreq
            exact hreq
    · rw [alGet_alSet_ne _ _ _ _ hX] at h
      obtain ⟨hfd, hns, hg2, hdist, d', hd', hlt', hguard⟩ := hm.prevSound X f2 h
      refine ⟨hfd, hns, hg2, ?_, ?_⟩
      · rw [eUpd_dist, alGet_alSet_ne _ _ _ _ hX]
        exact hdist
      · by_cases ho2 : f2.origin = f.dest
        · have hno : f2.origin ≠ start := by rw [ho2]; exact hDstart
          rw [if_neg hno] at hguard
          rw [ho2] at hd'
          rcases himp with hn | ⟨d3, hd3, hlt3⟩
          · rw [hn] at hd'; cases hd'
          · rw [hd3] at hd'
            injection hd' with h3
            refine ⟨f.arrive, ?_, by omega, ?_⟩
            · rw [eUpd_dist, ho2, alGet_alSet_self]
            · rw [if_neg hno]
              have : f.arrive < d' := by omega
              omega
        · refine ⟨d', ?_, hlt', hguard⟩
          rw [eUpd_dist, alGet_alSet_ne _ _ _ _ ho2]
          exact hd'
  case queueHasUnvisited =>
    intro X d h hnv
    rw [eUpd_dist] at h
    rw [eUpd_visited] at hnv
    rw [eUpd_pq]
    by_cases hX : X = f.dest
    · subst hX
      rw [alGet_alSet_self] at h
      injection h with h2
      subst h2
      exact List.mem_append_right _ (List.mem_singleton.mpr rfl)
    · rw [alGet_alSet_ne _ _ _ _ hX] at h
      exact List.mem_append_left _ (hm.queueHasUnvisited X d h hnv)
  case queueLabeled =>
    intro k X h
    rw [eUpd_pq] at h
    rw [eUpd_dist]
    rcases List.mem_append.mp h with h | h
    · obtain ⟨d, hd, hdle⟩ := hm.queueLabeled k X h
      by_cases hX : X = f.dest
      · subst hX
        refine ⟨f.arrive, alGet_alSet_self _ _ _, ?_⟩
        rcases himp with hn | ⟨d3, hd3, hlt3⟩
        · rw [hn] at hd; cases hd
        · rw [hd3] at hd
          injection hd with h3
          omega
      · exact ⟨d, by rw [alGet_alSet_ne _ _ _ _ hX]; exact hd, hdle⟩
    · simp only [List.mem_singleton, Prod.mk.injEq] at h
      obtain ⟨hk, hX⟩ := h
      subst hk
      subst hX
      exact ⟨f.arrive, alGet_alSet_self _ _ _, le_refl _⟩
  case visitedFrozen =>
    intro X hX
    rw [eUpd_visited] at hX
    obtain ⟨d, hd, hbound⟩ := hm.visitedFrozen X hX
    have hXD : X ≠ f.dest := fun hh => hDvis (hh ▸ hX)
    refine ⟨d, ?_, ?_⟩
    · rw [eUpd_dist, alGet_alSet_ne _ _ _ _ hXD]
      exact hd
    · intro k Y hk
      rw [eUpd_pq] at hk
      rcases List.mem_append.mp hk with hk | hk
      · exact hbound k Y hk
      · simp only [List.mem_singleton, Prod.mk.injEq] at hk
        obtain ⟨d2, hd2, hd2k0⟩ := hm.frozenLe X hX
        rw [hd] at hd2
        injection hd2 with h2
        omega
  case relaxedOld =>
    intro X hX0 d hd f2 hf2 hguard
    have hXvis : X ∈ s.visited := by
      rw [hm.visitedEq]
      exact List.mem_cons_of_mem _ hX0
    have hXD : X ≠ f.dest := fun hh => hDvis (hh ▸ hXvis)
    rw [eUpd_dist, alGet_alSet_ne _ _ _ _ hXD] at hd
    obtain ⟨d2, hd2, hle2⟩ := hm.relaxedOld X hX0 d hd f2 hf2 hguard
    by_cases hD2 : f2.dest = f.dest
    · refine ⟨f.arrive, ?_, ?_⟩
      · rw [eUpd_dist, hD2, alGet_alSet_self]
      · rcases himp with hn | ⟨d3, hd3, hlt3⟩
        · rw [hD2, hn] at hd2; cases hd2
        · rw [hD2, hd3] at hd2
          injection hd2 with h2
          omega
    · refine ⟨d2, ?_, hle2⟩
      rw [eUpd_dist, alGet_alSet_ne _ _ _ _ hD2]
      exact hd2
  case visitedOpt =>
    intro X hX d hd legs hch hld a ha
    rw [eUpd_visited] at hX
    have hXD : X ≠ f.dest := fun hh => hDvis (hh ▸ hX)
    rw [eUpd_dist, alGet_alSet_ne _ _ _ _ hXD] at hd
    exact hm.visitedOpt X hX d hd legs hch hld a ha
  case queuePrev =>
    intro k X h
    rw [eUpd_pq] at h
    rw [eUpd_prev]
    rcases List.mem_append.mp h with h | h
    · rcases hm.queuePrev k X h with h | h
      · exact Or.inl h
      · exact Or.inr (alGet_alSet_isSome _ _ _ _ h)
    · simp only [List.mem_singleton, Prod.mk.injEq] at h
      right
      rw [h.2, alGet_alSet_self]
      rfl
  case visitedEq =>
    rw [eUpd_visited]; exact hm.visitedEq
  case frozenLe =>
    intro X hX
    rw [eUpd_visited] at hX
    obtain ⟨d, hd, hdk⟩ := hm.frozenLe X hX
    have hXD : X ≠ f.dest := fun hh => hDvis (hh ▸ hX)
    refine ⟨d, ?_, hdk⟩
    rw [eUpd_dist, alGet_alSet_ne _ _ _ _ hXD]
    exact hd
  case distA0 =>
    rw [eUpd_dist, alGet_alSet_ne _ _ _ _ (Ne.symm hDa0)]
    exact hm.distA0

/-- Relaxation never raises an existing label: `dist` entries only improve. -/
theorem relaxListE_distMono (start : String) (curTime : Nat) (airport : String) :
    ∀ fs (s : EState) X d, alGet s.dist X = some d →
      ∃ d2, alGet (relaxListE start curTime airport fs s).dist X = some d2 ∧ d2 ≤ d := by
  intro fs
  induction fs with
  | nil => intro s X d h; exact ⟨d, h, le_refl d⟩
  | cons f rest ih =>
    intro s X d h
    obtain ⟨s1, heq, hcases⟩ := relaxListE_cons_char start curTime airport f rest s
    rw [heq]
    have h1 : ∃ d1, alGet s1.dist X = some d1 ∧ d1 ≤ d := by
      rcases hcases with ⟨_, rfl⟩ | ⟨_, hn, rfl⟩ | ⟨_, ⟨d0, hd0, hlt0⟩, rfl⟩ | ⟨_, _, rfl⟩
      · exact ⟨d, h, le_refl d⟩
      · by_cases hX : X = f.dest
        · subst hX; rw [hn] at h; cases h
        · exact ⟨d, by rw [eUpd_dist, alGet_alSet_ne _ _ _ _ hX]; exact h, le_refl d⟩
      · by_cases hX : X = f.dest
        · subst hX
          rw [hd0] at h
          injection h with h2
          refine ⟨f.arrive, by rw [eUpd_dist, alGet_alSet_self], by omega⟩
        · exact ⟨d, by rw [eUpd_dist, alGet_alSet_ne _ _ _ _ hX]; exact h, le_refl d⟩
      · exact ⟨d, h, le_refl d⟩
    obtain ⟨d1, hd1, hled⟩ := h1
    obtain ⟨d2, hd2, hle2⟩ := ih s1 X d1 hd1
    exact ⟨d2, hd2, le_trans hle2 hled⟩

/-- The relaxation loop of the earliest search preserves the mid-iteration
invariant and leaves every processed eligible flight's destination labeled
no later than that flight's arrival. -/
theorem relaxListE_EMid (g : Graph) (start : String) (t0 : Nat) (V0 : List String)
    (k0 : Nat) (a0 : String)
    (ho : ∀ a f, f ∈ graphGet g a → f.origin = a)
    (hv : ∀ a f, f ∈ graphGet g a → f.depart < f.arrive) :
    ∀ fs (s : EState), (∀ f ∈ fs, f ∈ graphGet g a0) →
      EMid g start t0 V0 k0 a0 s →
      EMid g start t0 V0 k0 a0 (relaxListE start k0 a0 fs s) ∧
      ∀ f ∈ fs, (if a0 = start then k0 else k0 + MIN_LAYOVER_MINUTES) ≤ f.depart →
        ∃ d2, alGet (relaxListE start k0 a0 fs s).dist f.dest = some d2 ∧
          d2 ≤ f.arrive := by
  intro fs
  induction fs with
  | nil =>
    intro s _ hm
    exact ⟨hm, by intro f hf; cases hf⟩
  | cons f rest ih =>
    intro s hfs hm
    have hfg : f ∈ graphGet g a0 := hfs f (List.mem_cons_self _ _)
    have hrestg : ∀ f2 ∈ rest, f2 ∈ graphGet g a0 :=
      fun f2 h2 => hfs f2 (List.mem_cons_of_mem _ h2)
    obtain ⟨s1, heq, hcases⟩ := relaxListE_cons_char start k0 a0 f rest s
    rw [heq]
    have hm1 : EMid g start t0 V0 k0 a0 s1 ∧
        (∀ hreq : (if a0 = start then k0 else k0 + MIN_LAYOVER_MINUTES) ≤ f.depart,
          ∃ d1, alGet s1.dist f.dest = some d1 ∧ d1 ≤ f.arrive) := by
      rcases hcases with ⟨hnreq, rfl⟩ | ⟨hreq, hn, rfl⟩ | ⟨hreq, ⟨d0, hd0, hlt0⟩, rfl⟩ |
        ⟨hreq, ⟨d0, hd0, hnlt0⟩, rfl⟩
      · exact ⟨hm, fun hreq => absurd hreq hnreq⟩
      · refine ⟨eUpd_EMid g start t0 V0 k0 a0 s f hm hfg (ho a0 f hfg)
          (hv a0 f hfg) hreq (Or.inl hn), ?_⟩
        intro _
        exact ⟨f.arrive, by rw [eUpd_dist, alGet_alSet_self], le_refl _⟩
      · refine ⟨eUpd_EMid g start t0 V0 k0 a0 s f hm hfg (ho a0 f hfg)
          (hv a0 f hfg) hreq (Or.inr ⟨d0, hd0, hlt0⟩), ?_⟩
        intro _
        exact ⟨f.arrive, by rw [eUpd_dist, alGet_alSet_self], le_refl _⟩
      · exact ⟨hm, fun _ => ⟨d0, hd0, by omega⟩⟩
    obtain ⟨hm1, hf1⟩ := hm1
    obtain ⟨hmfin, hrest⟩ := ih s1 hrestg hm1
    refine ⟨hmfin, ?_⟩
    intro f2 hf2 hreq2
    rcases List.mem_cons.mp hf2 with hf2 | hf2
    · subst hf2
      obtain ⟨d1, hd1, hle1⟩ := hf1 hreq2
      obtain ⟨d2, hd2, hle2⟩ := relaxListE_distMono start k0 a0 rest s1 f2.dest d1 hd1
      exact ⟨d2, hd2, le_trans hle2 hle1⟩
    · exact hrest f2 hf2 hreq2

/-- One continuing iteration of the earliest-search loop preserves the loop
invariant. -/
theorem estep_EInv_cont (g : Graph) (start dest : String) (t0 : Nat)
    (ho : ∀ a f, f ∈ graphGet g a → f.origin = a)
    (hv : ∀ a f, f ∈ graphGet g a → f.depart < f.arrive)
    (s s' : EState) (hi : EInv g start dest t0 s)
    (h : estep g start dest s = .cont s') : EInv g start dest t0 s' := by
  rcases estep_char g start dest s _ h with
    ⟨_, habs⟩ | ⟨k0, a0, rest, hpop, hvis, hout⟩ |
    ⟨k0, a0, rest, hpop, hvis, hdest, habs⟩ | ⟨k0, a0, rest, hpop, hvis, hdest, hout⟩
  · cases habs
  · -- the popped airport was already visited: only the queue shrinks
    obtain ⟨hmem, hmin, hperm⟩ := popMinE_some hpop
    have hrsub : ∀ y, y ∈ rest → y ∈ s.pq :=
      fun y hy => hperm.mem_iff.mpr (List.mem_cons_of_mem _ hy)
    cases hout
    exact {
      distNodup := hi.distNodup
      prevNodup := hi.prevNodup
      startDist := hi.startDist
      startPrev := hi.startPrev
      distLB := hi.distLB
      prevOfDist := hi.prevOfDist
      prevSound := hi.prevSound
      queueHasUnvisited := by
        intro X d hd hnv
        have hXa0 : X ≠ a0 := fun hh => hnv (hh ▸ hvis)
        have hin : (d, X) ∈ (k0, a0) :: rest :=
          hperm.mem_iff.mp (hi.queueHasUnvisited X d hd hnv)
        rcases List.mem_cons.mp hin with hin | hin
        · injection hin with h1 h2
          exact absurd h2 hXa0
        · exact hin
      queueLabeled := fun k X hk => hi.queueLabeled k X (hrsub _ hk)
      visitedFrozen := by
        intro X hX
        obtain ⟨d, hd, hb⟩ := hi.visitedFrozen X hX
        exact ⟨d, hd, fun k Y hk => hb k Y (hrsub _ hk)⟩
      relaxedAll := hi.relaxedAll
      visitedOpt := hi.visitedOpt
      queuePrev := fun k X hk => hi.queuePrev k X (hrsub _ hk)
      visitedLog := hi.visitedLog
      visitedNodup := hi.visitedNodup
      destNotVisited := hi.destNotVisited }
  · cases habs
  · -- a fresh airport is finalized and its outbound flights relaxed
    obtain ⟨hmem, hmin, hperm⟩ := popMinE_some hpop
    have hrsub : ∀ y, y ∈ rest → y ∈ s.pq :=
      fun y hy => hperm.mem_iff.mpr (List.mem_cons_of_mem _ hy)
    obtain ⟨d0, hd0, hd0le⟩ := hi.queueLabeled k0 a0 hmem
    have hk0d0 : k0 ≤ d0 := by
      have := hmin (d0, a0) (hi.queueHasUnvisited a0 d0 hd0 hvis)
      simpa using this
    have hda0 : alGet s.dist a0 = some k0 := by
      have : d0 = k0 := by omega
      rw [← this]
      exact hd0
    cases hout
    have hmid : EMid g start t0 s.visited k0 a0
        { s with pq := rest, visited := a0 :: s.visited, log := s.log ++ [a0] } := by
      refine {
        distNodup := hi.distNodup
        prevNodup := hi.prevNodup
        startDist := hi.startDist
        startPrev := hi.startPrev
        distLB := hi.distLB
        prevOfDist := hi.prevOfDist
        prevSound := hi.prevSound
        queueHasUnvisited := ?_
        queueLabeled := fun k X hk => hi.queueLabeled k X (hrsub _ hk)
        visitedFrozen := ?_
        relaxedOld := hi.relaxedAll
        visitedOpt := ?_
        queuePrev := fun k X hk => hi.queuePrev k X (hrsub _ hk)
        visitedEq := rfl
        frozenLe := ?_
        distA0 := hda0 }
      · intro X d hd hnv
        simp only [List.mem_cons] at hnv
        push_neg at hnv
        have hin : (d, X) ∈ (k0, a0) :: rest :=
          hperm.mem_iff.mp (hi.queueHasUnvisited X d hd hnv.2)
        rcases List.mem_cons.mp hin with hin | hin
        · injection hin with h1 h2
          exact absurd h2 hnv.1
        · exact hin
      · intro X hX
        rcases List.mem_cons.mp hX with hX | hX
        · subst hX
          refine ⟨k0, hda0, ?_⟩
          intro k Y hk
          have := hmin (k, Y) (hrsub _ hk)
          simpa using this
        · obtain ⟨d, hd, hb⟩ := hi.visitedFrozen X hX
          exact ⟨d, hd, fun k Y hk => hb k Y (hrsub _ hk)⟩
      · intro X hX d hd legs hch hld a ha
        rcases List.mem_cons.mp hX with hX | hX
        · subst hX
          have hdk0 : d = k0 := by
            rw [hda0] at hd
            injection hd with h2
            omega
          subst hdk0
          obtain ⟨W, dW, hW, hWle, hWcase⟩ :=
            chainW g start t0 s hv hi.distLB hi.relaxedAll legs start t0 t0 t0 hch
              hi.startDist (by rw [if_pos rfl]) (le_refl t0) (le_refl t0)
          rw [ha] at hWle
          simp only [Option.getD_some] at hWle
          rcases hWcase with hWnv | hWld
          · have := hmin (dW, W) (hi.queueHasUnvisited W dW hW hWnv)
            simp only at this
            omega
          · rw [hld] at hWld
            simp only [Option.getD_some] at hWld
            subst hWld
            rw [hda0] at hW
            injection hW with h2
            omega
        · exact hi.visitedOpt X hX d hd legs hch hld a ha
      · intro X hX
        rcases List.mem_cons.mp hX with hX | hX
        · subst hX
          exact ⟨k0, hda0, le_refl k0⟩
        · obtain ⟨d, hd, hb⟩ := hi.visitedFrozen X hX
          refine ⟨d, hd, ?_⟩
          have := hb k0 a0 hmem
          omega
    obtain ⟨hmfin, hnewJ⟩ := relaxListE_EMid g start t0 s.visited k0 a0 ho hv
      (graphGet g a0) _ (fun f hf => hf) hmid
    obtain ⟨hvisEq, hlogEq⟩ := relaxListE_vislog start k0 a0 (graphGet g a0)
      { s with pq := rest, visited := a0 :: s.visited, log := s.log ++ [a0] }
    exact {
      distNodup := hmfin.distNodup
      prevNodup := hmfin.prevNodup
      startDist := hmfin.startDist
      startPrev := hmfin.startPrev
      distLB := hmfin.distLB
      prevOfDist := hmfin.prevOfDist
      prevSound := hmfin.prevSound
      queueHasUnvisited := by
        intro X d hd hnv
        rw [hvisEq] at hnv
        exact hmfin.queueHasUnvisited X d hd (by rw [hmfin.visitedEq]; exact hnv)
      queueLabeled := hmfin.queueLabeled
      visitedFrozen := by
        intro X hX
        rw [hvisEq] at hX
        exact hmfin.visitedFrozen X (by rw [hmfin.visitedEq]; exact hX)
      relaxedAll := by
        intro X hX d hd f hf hguard
        rw [hvisEq] at hX
        rcases List.mem_cons.mp hX with hX | hX
        · subst hX
          have hdk0 : d = k0 := by
            have := hmfin.distA0
            rw [this] at hd
            injection hd with h2
            omega
          subst hdk0
          apply hnewJ f hf
          by_cases h0 : X = start
          · rw [if_pos h0]
            rw [if_pos h0] at hguard
            have : d = t0 := by
              rw [h0] at hda0
              rw [hi.startDist] at hda0
              injection hda0 with h2
              omega
            omega
          · rw [if_neg h0]
            rw [if_neg h0] at hguard
            exact hguard
        · exact hmfin.relaxedOld X hX d hd f hf hguard
      visitedOpt := by
        intro X hX
        rw [hvisEq] at hX
        exact hmfin.visitedOpt X (by rw [hmfin.visitedEq]; exact hX)
      queuePrev := hmfin.queuePrev
      visitedLog := by
        rw [hvisEq, hlogEq]
        simp only [List.reverse_append, List.reverse_cons, List.reverse_nil,
          List.nil_append, List.singleton_append]
        rw [hi.visitedLog]
      visitedNodup := by
        rw [hvisEq]
        exact List.nodup_cons.mpr ⟨hvis, hi.visitedNodup⟩
      destNotVisited := by
        rw [hvisEq]
        intro hd
        rcases List.mem_cons.mp hd with hd | hd
        · exact hdest hd.symm
        · exact hi.destNotVisited hd }

/-! ### Reconstruction follows sound predecessor chains to the start -/

theorem reconAux_chain (g : Graph) (start : String) (t0 : Nat)
    (dist : List (String × Nat)) (prev : List (String × Flight))
    (hsound : ∀ X f, alGet prev X = some f → f.dest = X ∧ X ≠ start ∧
      f ∈ graphGet g f.origin ∧ alGet dist X = some f.arrive ∧
      ∃ d', alGet dist f.origin = some d' ∧ d' < f.arrive ∧
        (if f.origin = start then t0 ≤ f.depart
         else d' + MIN_LAYOVER_MINUTES ≤ f.depart))
    (hpod : ∀ X d, X ≠ start → alGet dist X = some d → (alGet prev X).isSome) :
    ∀ fuel X d acc,
      alGet dist X = some d →
      legsChain g X (if X = start then t0 else d + MIN_LAYOVER_MINUTES) acc →
      (cntBelow prev (d + 1) ≤ fuel ∨ X = start) →
      ∃ legs, reconAux prev fuel X acc = some legs ∧
        legsChain g start t0 legs ∧ ∃ pre, legs = pre ++ acc := by
  intro fuel
  induction fuel with
  | zero =>
    intro X d acc hX hacc hor
    rcases hfl : alGet prev X with _ | fl
    · rw [reconAux_eq, hfl]
      refine ⟨acc, rfl, ?_, [], by simp⟩
      by_cases hXs : X = start
      · rw [if_pos hXs] at hacc
        rw [← hXs]
        exact hacc
      · have := hpod X d hXs hX
        rw [hfl] at this
        cases this
    · exfalso
      obtain ⟨hdest, hne, hmemg, hdistX, d', hd', hlt', hguard⟩ := hsound X fl hfl
      rcases hor with hcnt | hXs
      · have hmem : (X, fl) ∈ prev := alGet_mem hfl
        have hda : d = fl.arrive := by
          rw [hX] at hdistX
          injection hdistX with h2
        have hpos : 0 < cntBelow prev (d + 1) := by
          unfold cntBelow
          rw [List.countP_pos]
          refine ⟨(X, fl), hmem, ?_⟩
          simp only [decide_eq_true_eq]
          omega
        omega
      · exact hne hXs
  | succ n ih =>
    intro X d acc hX hacc hor
    rcases hfl : alGet prev X with _ | fl
    · rw [reconAux_eq, hfl]
      refine ⟨acc, rfl, ?_, [], by simp⟩
      by_cases hXs : X = start
      · rw [if_pos hXs] at hacc
        rw [← hXs]
        exact hacc
      · have := hpod X d hXs hX
        rw [hfl] at this
        cases this
    · obtain ⟨hdest, hne, hmemg, hdistX, d', hd', hlt', hguard⟩ := hsound X fl hfl
      have hda : d = fl.arrive := by
        rw [hX] at hdistX
        injection hdistX with h2
      have hcnt : cntBelow prev (d + 1) ≤ n + 1 := by
        rcases hor with h | h
        · exact h
        · exact absurd h hne
      have hacc2 : legsChain g fl.origin
          (if fl.origin = start then t0 else d' + MIN_LAYOVER_MINUTES) (fl :: acc) := by
        refine ⟨rfl, ?_, hmemg, ?_⟩
        · by_cases h0 : fl.origin = start
          · rw [if_pos h0]
            rw [if_pos h0] at hguard
            exact hguard
          · rw [if_neg h0]
            rw [if_neg h0] at hguard
            exact hguard
        · rw [hdest]
          rw [if_neg hne, hda] at hacc
          exact hacc
      have hrec : cntBelow prev (d' + 1) ≤ n ∨ fl.origin = start := by
        by_cases h0 : fl.origin = start
        · exact Or.inr h0
        · left
          have hlt : cntBelow prev (d' + 1) < cntBelow prev (d + 1) := by
            unfold cntBelow
            refine countP_lt_of_flip prev _ _ (X, fl) (alGet_mem hfl) ?_ ?_ ?_
            · simp only [decide_eq_true_eq]
              omega
            · simp only [decide_eq_false_iff_not]
              omega
            · intro a _ ha
              simp only [decide_eq_true_eq] at ha ⊢
              omega
          omega
      obtain ⟨legs, hlegs, hchain, pre, hpre⟩ := ih fl.origin d' (fl :: acc) hd' hacc2 hrec
      refine ⟨legs, ?_, hchain, pre ++ [fl], by simp [hpre]⟩
      rw [reconAux_eq, hfl]
      exact hlegs

theorem reconstruct_chain (g : Graph) (start : String) (t0 : Nat)
    (dist : List (String × Nat)) (prev : List (String × Flight))
    (hsound : ∀ X f, alGet prev X = some f → f.dest = X ∧ X ≠ start ∧
      f ∈ graphGet g f.origin ∧ alGet dist X = some f.arrive ∧
      ∃ d', alGet dist f.origin = some d' ∧ d' < f.arrive ∧
        (if f.origin = start then t0 ≤ f.depart
         else d' + MIN_LAYOVER_MINUTES ≤ f.depart))
    (hpod : ∀ X d, X ≠ start → alGet dist X = some d → (alGet prev X).isSome)
    (X : String) (d : Nat) (hX : alGet dist X = some d) (hne : X ≠ start) :
    ∃ legs f0, reconstruct_itinerary prev X = .found legs ∧
      legsChain g start t0 legs ∧ legs.getLast? = some f0 ∧
      f0.dest = X ∧ f0.arrive = d := by
  have hps : (alGet prev X).isSome := hpod X d hne hX
  obtain ⟨fl0, hfl0⟩ := Option.isSome_iff_exists.mp hps
  obtain ⟨hdest, _, hmemg, hdistX, d', hd', hlt', hguard⟩ := hsound X fl0 hfl0
  have hda : d = fl0.arrive := by
    rw [hX] at hdistX
    injection hdistX with h2
  have hmem : (X, fl0) ∈ prev := alGet_mem hfl0
  have hlen : 0 < prev.length := by
    cases prev with
    | nil => cases hmem
    | cons p rest => simp
  obtain ⟨m, hm⟩ : ∃ m, prev.length = m + 1 := ⟨prev.length - 1, by omega⟩
  have hacc : legsChain g fl0.origin
      (if fl0.origin = start then t0 else d' + MIN_LAYOVER_MINUTES) [fl0] := by
    refine ⟨rfl, ?_, hmemg, trivial⟩
    by_cases h0 : fl0.origin = start
    · rw [if_pos h0]
      rw [if_pos h0] at hguard
      exact hguard
    · rw [if_neg h0]
      rw [if_neg h0] at hguard
      exact hguard
  have hfuel : cntBelow prev (d' + 1) ≤ m ∨ fl0.origin = start := by
    by_cases h0 : fl0.origin = start
    · exact Or.inr h0
    · left
      have : cntBelow prev (d' + 1) < prev.length := by
        unfold cntBelow
        refine countP_lt_length_of_mem prev _ (X, fl0) hmem ?_
        simp only [decide_eq_false_iff_not]
        omega
      omega
  obtain ⟨legs, hlegs, hchain, pre, hpre⟩ :=
    reconAux_chain g start t0 dist prev hsound hpod m fl0.origin d' [fl0] hd' hacc hfuel
  have hstep : reconAux prev prev.length X [] = some legs := by
    rw [hm, reconAux_eq, hfl0]
    exact hlegs
  refine ⟨legs, fl0, ?_, hchain, ?_, hdest, hda.symm⟩
  · unfold reconstruct_itinerary
    rw [hstep]
  · rw [hpre]
    exact List.getLast?_concat _

/-- The loop invariant holds when `find_earliest_itinerary` first reaches
its `while` loop. -/
theorem eInit_EInv (g : Graph) (start dest : String) (t0 : Nat) :
    EInv g start dest t0 (eInit start t0) := by
  refine {
    distNodup := by simp [eInit]
    prevNodup := by simp [eInit]
    startDist := by simp [eInit, alGet]
    startPrev := rfl
    distLB := ?_
    prevOfDist := ?_
    prevSound := ?_
    queueHasUnvisited := ?_
    queueLabeled := ?_
    visitedFrozen := by intro X hX; cases hX
    relaxedAll := by intro X hX; cases hX
    visitedOpt := by intro X hX; cases hX
    queuePrev := ?_
    visitedLog := rfl
    visitedNodup := List.nodup_nil
    destNotVisited := by intro hX; cases hX }
  · intro X d h
    by_cases hX : start = X
    · simp only [eInit, alGet, if_pos hX] at h
      injection h with h2
      omega
    · simp only [eInit, alGet, if_neg hX] at h
      cases h
  · intro X d hXs h
    by_cases hX : start = X
    · exact absurd hX.symm hXs
    · simp only [eInit, alGet, if_neg hX] at h
      cases h
  · intro X f h
    simp only [eInit, alGet] at h
    cases h
  · intro X d h hnv
    by_cases hX : start = X
    · simp only [eInit, alGet, if_pos hX] at h
      injection h with h2
      subst hX
      subst h2
      simp [eInit]
    · simp only [eInit, alGet, if_neg hX] at h
      cases h
  · intro k X h
    simp only [eInit, List.mem_singleton, Prod.mk.injEq] at h
    obtain ⟨hk, hX⟩ := h
    subst hX
    exact ⟨t0, by simp [eInit, alGet], by omega⟩
  · intro k X h
    simp only [eInit, List.mem_singleton, Prod.mk.injEq] at h
    exact Or.inl h.2

/-- What holds when the earliest-search loop exits: a `None` result means no
feasible itinerary exists; for distinct endpoints a returned itinerary is
feasible with minimal arrival; the result is never a hang or a raise; and
the final predecessor map reconstructs from every mapped airport. -/
theorem estep_EInv_done (g : Graph) (start dest : String) (t0 : Nat)
    (hv : ∀ a f, f ∈ graphGet g a → f.depart < f.arrive)
    (s s' : EState) (r : SearchResult) (hi : EInv g start dest t0 s)
    (h : estep g start dest s = .done r s') :
    (r = .none → ∀ legs, ¬ Feasible g start dest t0 legs) ∧
    (start ≠ dest → ∀ legs, r = .found legs → Feasible g start dest t0 legs ∧
      ∀ a, arrive_time legs = some a → ∀ legs2 a2, Feasible g start dest t0 legs2 →
        arrive_time legs2 = some a2 → a ≤ a2) ∧
    (r = .none ∨ ∃ legs, r = .found legs) ∧
    alGet s'.prev start = Option.none ∧
    (∀ X, (alGet s'.prev X).isSome →
      ∃ legs2, reconstruct_itinerary s'.prev X = .found legs2) := by
  have hprevfacts : ∀ X, (alGet s.prev X).isSome →
      ∃ legs2, reconstruct_itinerary s.prev X = .found legs2 := by
    intro X hX
    obtain ⟨f, hf⟩ := Option.isSome_iff_exists.mp hX
    obtain ⟨_, hne, _, hdistX, _⟩ := hi.prevSound X f hf
    obtain ⟨legs, f0, hfound, _⟩ :=
      reconstruct_chain g start t0 s.dist s.prev hi.prevSound hi.prevOfDist
        X f.arrive hdistX hne
    exact ⟨legs, hfound⟩
  rcases estep_char g start dest s _ h with
    ⟨hpop, hout⟩ | ⟨k0, a0, rest, hpop, hvis, habs⟩ |
    ⟨k0, a0, rest, hpop, hvis, hdest, hout⟩ | ⟨k0, a0, rest, hpop, hvis, hdest, habs⟩
  · -- the queue is exhausted: no result
    have hpq : s.pq = [] := popMinE_none hpop
    injection hout with hr hs
    subst hr
    refine ⟨?_, ?_, Or.inl rfl, by rw [hs]; exact hi.startPrev,
      by rw [hs]; exact hprevfacts⟩
    · intro _ legs hfe
      obtain ⟨hne0, hch, hld⟩ := hfe
      obtain ⟨W, dW, hW, hWle, hWcase⟩ :=
        chainW g start t0 s hv hi.distLB hi.relaxedAll legs start t0 t0 t0 hch
          hi.startDist (by rw [if_pos rfl]) (le_refl t0) (le_refl t0)
      have hWnv : W ∉ s.visited := by
        rcases hWcase with hWnv | hWld
        · exact hWnv
        · rw [hld] at hWld
          simp only [Option.getD_some] at hWld
          rw [hWld]
          exact hi.destNotVisited
      have := hi.queueHasUnvisited W dW hW hWnv
      rw [hpq] at this
      cases this
    · intro _ legs habs2
      cases habs2
  · cases habs
  · -- the destination is popped: the itinerary is reconstructed
    subst hdest
    obtain ⟨hmem, hmin, hperm⟩ := popMinE_some hpop
    obtain ⟨d0, hd0, hd0le⟩ := hi.queueLabeled k0 a0 hmem
    have hk0d0 : k0 ≤ d0 := by
      have := hmin (d0, a0) (hi.queueHasUnvisited a0 d0 hd0 hvis)
      simpa using this
    have hda0 : alGet s.dist a0 = some k0 := by
      have : d0 = k0 := by omega
      rw [← this]
      exact hd0
    injection hout with hr hs
    have hsprev : s'.prev = s.prev := by rw [hs]
    have hopt : ∀ legs2 a2, Feasible g start a0 t0 legs2 →
        arrive_time legs2 = some a2 → k0 ≤ a2 := by
      intro legs2 a2 hfe ha2
      obtain ⟨hne0, hch, hld⟩ := hfe
      obtain ⟨W, dW, hW, hWle, hWcase⟩ :=
        chainW g start t0 s hv hi.distLB hi.relaxedAll legs2 start t0 t0 t0 hch
          hi.startDist (by rw [if_pos rfl]) (le_refl t0) (le_refl t0)
      rw [ha2] at hWle
      simp only [Option.getD_some] at hWle
      rcases hWcase with hWnv | hWld
      · have := hmin (dW, W) (hi.queueHasUnvisited W dW hW hWnv)
        simp only at this
        omega
      · rw [hld] at hWld
        simp only [Option.getD_some] at hWld
        subst hWld
        rw [hda0] at hW
        injection hW with h2
        omega
    by_cases hsd : a0 = start
    · have hfound : reconstruct_itinerary s.prev a0 = .found ([] : List Flight) := by
        rw [hsd]
        unfold reconstruct_itinerary
        rw [reconAux_eq, hi.startPrev]
      refine ⟨?_, ?_, ?_, by rw [hsprev]; exact hi.startPrev, ?_⟩
      · intro habs2
        rw [hr, hfound] at habs2
        cases habs2
      · intro hne2 legs hfl
        exact absurd hsd (fun hh => hne2 hh.symm)
      · right
        exact ⟨[], by rw [hr, hfound]⟩
      · intro X hX
        rw [hsprev] at hX ⊢
        exact hprevfacts X hX
    · obtain ⟨legs, f0, hfound, hch, hlast, hf0d, hf0a⟩ :=
        reconstruct_chain g start t0 s.dist s.prev hi.prevSound hi.prevOfDist
          a0 k0 hda0 hsd
      refine ⟨?_, ?_, ?_, by rw [hsprev]; exact hi.startPrev, ?_⟩
      · intro habs2
        rw [hr, hfound] at habs2
        cases habs2
      · intro _ legs2 hfl
        rw [hr, hfound] at hfl
        injection hfl with hl2
        subst hl2
        have hfe : Feasible g start a0 t0 legs := by
          refine ⟨?_, hch, ?_⟩
          · intro hnil
            rw [hnil] at hlast
            cases hlast
          · rw [last_dest, hlast, Option.map_some', hf0d]
        refine ⟨hfe, ?_⟩
        intro a ha legs3 a3 hfe3 ha3
        have hak0 : a = k0 := by
          rw [arrive_time, hlast, Option.map_some', hf0a] at ha
          injection ha with h2
          omega
        subst hak0
        exact hopt legs3 a3 hfe3 ha3
      · right
        exact ⟨legs, by rw [hr, hfound]⟩
      · intro X hX
        rw [hsprev] at hX ⊢
        exact hprevfacts X hX
  · cases habs

/-- Everything a finished run of `find_earliest_itinerary` guarantees, for
any graph whose adjacency lists are keyed by origin and store valid
flights. -/
theorem erun_correct (g : Graph) (start dest : String) (t0 : Nat)
    (ho : ∀ a f, f ∈ graphGet g a → f.origin = a)
    (hv : ∀ a f, f ∈ graphGet g a → f.depart < f.arrive)
    (n : Nat) (r : SearchResult) (sF : EState)
    (h : erun g start dest n (eInit start t0) = some (r, sF)) :
    (r = .none → ∀ legs, ¬ Feasible g start dest t0 legs) ∧
    (start ≠ dest → ∀ legs, r = .found legs → Feasible g start dest t0 legs ∧
      ∀ a, arrive_time legs = some a → ∀ legs2 a2, Feasible g start dest t0 legs2 →
        arrive_time legs2 = some a2 → a ≤ a2) ∧
    (r = .none ∨ ∃ legs, r = .found legs) ∧
    alGet sF.prev start = Option.none ∧
    (∀ X, (alGet sF.prev X).isSome →
      ∃ legs2, reconstruct_itinerary sF.prev X = .found legs2) := by
  exact runSteps_inv (estep g start dest) (EInv g start dest t0) _
    (fun s s' hi hs => estep_EInv_cont g start dest t0 ho hv s s' hi hs)
    (fun s r0 s' hi hs => estep_EInv_done g start dest t0 hv s s' r0 hi hs)
    n _ r sF (eInit_EInv g start dest t0) h

/-- C2 (amended): on every route graph built from valid flights and every
query with distinct start and destination airports, `find_earliest_itinerary`
never hangs or raises; a `None` result means no feasible itinerary exists;
and a returned itinerary is feasible — consecutive legs connect
origin-to-destination, the first leg departs no earlier than the requested
time, and every later leg departs at least `MIN_LAYOVER_MINUTES` after the
previous arrival — with the minimum arrival time over all feasible
itineraries. (The unamended claim is refuted by `claim2_counterexample`:
when start equals the destination the search returns an empty present
itinerary with no arrival time even when a feasible loop itinerary
exists.) -/
theorem claim2_earliest_correct_amended (fs : List Flight) (start dest : String)
    (t0 : Nat) (hv : ∀ f ∈ fs, f.depart < f.arrive) (hne : start ≠ dest)
    (r : SearchResult) (hr : EReturns (build_graph fs) start dest t0 r) :
    (r = .none ∨ ∃ legs, r = .found legs) ∧
    (r = .none → ∀ legs, ¬ Feasible (build_graph fs) start dest t0 legs) ∧
    (∀ legs, r = .found legs →
      Feasible (build_graph fs) start dest t0 legs ∧
      ∀ a, arrive_time legs = some a →
        ∀ legs2 a2, Feasible (build_graph fs) start dest t0 legs2 →
          arrive_time legs2 = some a2 → a ≤ a2) := by
  obtain ⟨n, sF, h⟩ := hr
  have hc := erun_correct (build_graph fs) start dest t0
    (build_graph_origin fs) (build_graph_valid fs hv) n r sF h
  exact ⟨hc.2.2.1, hc.1, hc.2.1 hne⟩

/-- Witness for C2 (amended) at the spec's section-8 scenario: the run
`A -> C` from 08:00 returns `[legAB, legBC2]`, which is feasible. -/
theorem claim2_witness :
    Feasible (build_graph [legAB, legBC2]) "A" "C" 480 [legAB, legBC2] := by
  have h := claim2_earliest_correct_amended [legAB, legBC2] "A" "C" 480 (by decide)
    (by decide) (.found [legAB, legBC2]) ⟨3, _, rfl⟩
  exact (h.2.2 [legAB, legBC2] rfl).1

/-! ### Pop-order ranks of the cheapest search -/

theorem firstIdx_lt_length (pa : List String) (Y : String) (h : Y ∈ pa) :
    firstIdx pa Y < pa.length := by
  induction pa with
  | nil => cases h
  | cons a rest ih =>
    by_cases ha : a = Y
    · simp [firstIdx, ha]
    · rcases List.mem_cons.mp h with h2 | h2
      · exact absurd h2.symm ha
      · simp only [firstIdx, if_neg ha, List.length_cons]
        have := ih h2
        omega

theorem firstIdx_append_of_mem (pa L : List String) (Y : String) (h : Y ∈ pa) :
    firstIdx (pa ++ L) Y = firstIdx pa Y := by
  induction pa with
  | nil => cases h
  | cons a rest ih =>
    by_cases ha : a = Y
    · simp [firstIdx, ha]
    · rcases List.mem_cons.mp h with h2 | h2
      · exact absurd h2.symm ha
      · simp only [List.cons_append, firstIdx, if_neg ha, List.append_eq, ih h2]

theorem firstIdx_append_of_not_mem (pa L : List String) (Y : String) (h : Y ∉ pa) :
    firstIdx (pa ++ L) Y = pa.length + firstIdx L Y := by
  induction pa with
  | nil => simp [firstIdx]
  | cons a rest ih =>
    have ha : ¬ a = Y := fun hh => h (hh ▸ List.mem_cons_self a rest)
    have hrest : Y ∉ rest := fun hh => h (List.mem_cons_of_mem a hh)
    simp only [List.cons_append, firstIdx, if_neg ha, List.length_cons, List.append_eq,
      ih hrest]
    omega

theorem rankLTb_iff (pa : List String) (Y X : String) :
    rankLTb pa Y X = true ↔
      Y ∈ pa ∧ (X ∈ pa → firstIdx pa Y < firstIdx pa X) := by
  unfold rankLTb
  constructor
  · intro h
    rw [Bool.and_eq_true] at h
    obtain ⟨h1, h2⟩ := h
    refine ⟨List.elem_iff.mp h1, ?_⟩
    intro hX
    rw [Bool.or_eq_true] at h2
    rcases h2 with h2 | h2
    · rw [Bool.not_eq_true'] at h2
      have h3 : pa.contains X = true := List.elem_iff.mpr hX
      rw [h3] at h2
      cases h2
    · exact of_decide_eq_true h2
  · rintro ⟨h1, h2⟩
    rw [Bool.and_eq_true]
    refine ⟨List.elem_iff.mpr h1, ?_⟩
    rw [Bool.or_eq_true]
    by_cases hX : X ∈ pa
    · exact Or.inr (decide_eq_true (h2 hX))
    · left
      rw [Bool.not_eq_true']
      rcases hc : pa.contains X with _ | _
      · rfl
      · exact absurd (List.elem_iff.mp hc) hX

theorem rankLTb_self (pa : List String) (X : String) : rankLTb pa X X = false := by
  unfold rankLTb
  rcases h : pa.contains X with _ | _
  · simp
  · simp [h, Nat.lt_irrefl]

/-- The backward walk terminates whenever every predecessor entry's origin
was finalized strictly earlier (in first-pop order) than its target. -/
theorem reconAuxC_total (prev : List (String × Flight)) (pa : List String)
    (hsound : ∀ X f, alGet prev X = some f → f.origin ∈ pa ∧
      (X ∈ pa → firstIdx pa f.origin < firstIdx pa X)) :
    ∀ fuel X acc, (cntRank prev pa X < fuel ∨ alGet prev X = Option.none) →
      ∃ legs, reconAux prev fuel X acc = some legs := by
  intro fuel
  induction fuel with
  | zero =>
    intro X acc hor
    rcases hfl : alGet prev X with _ | fl
    · exact ⟨acc, by rw [reconAux_eq, hfl]⟩
    · rcases hor with h | h
      · omega
      · rw [h] at hfl
        cases hfl
  | succ n ih =>
    intro X acc hor
    rcases hfl : alGet prev X with _ | fl
    · exact ⟨acc, by rw [reconAux_eq, hfl]⟩
    · have hcnt : cntRank prev pa X < n + 1 := by
        rcases hor with h | h
        · exact h
        · rw [h] at hfl
          cases hfl
      obtain ⟨hXpa, hXrank⟩ := hsound X fl hfl
      have hnext : cntRank prev pa fl.origin < n ∨
          alGet prev fl.origin = Option.none := by
        rcases hfl2 : alGet prev fl.origin with _ | f2
        · exact Or.inr rfl
        · left
          have hlt : cntRank prev pa fl.origin < cntRank prev pa X := by
            unfold cntRank
            refine countP_lt_of_flip prev _ _ (fl.origin, f2) (alGet_mem hfl2)
              ?_ ?_ ?_
            · rw [rankLTb_iff]
              exact ⟨hXpa, fun hX => hXrank hX⟩
            · exact rankLTb_self pa fl.origin
            · intro q _ hq
              rw [rankLTb_iff] at hq ⊢
              refine ⟨hq.1, fun hX => ?_⟩
              have h1 := hq.2 hXpa
              have h2 := hXrank hX
              omega
          omega
      obtain ⟨legs, hlegs⟩ := ih fl.origin (fl :: acc) hnext
      refine ⟨legs, ?_⟩
      rw [reconAux_eq, hfl]
      exact hlegs

theorem reconstructC_found (prev : List (String × Flight)) (pa : List String)
    (hsound : ∀ X f, alGet prev X = some f → f.origin ∈ pa ∧
      (X ∈ pa → firstIdx pa f.origin < firstIdx pa X)) :
    ∀ X, ∃ legs, reconstruct_itinerary prev X = .found legs := by
  intro X
  have hpre : cntRank prev pa X < prev.length ∨ alGet prev X = Option.none := by
    rcases hfl : alGet prev X with _ | fl
    · exact Or.inr rfl
    · left
      unfold cntRank
      exact countP_lt_length_of_mem prev _ (X, fl) (alGet_mem hfl) (rankLTb_self pa X)
  obtain ⟨legs, hlegs⟩ := reconAuxC_total prev pa hsound prev.length X [] hpre
  refine ⟨legs, ?_⟩
  unfold reconstruct_itinerary
  rw [hlegs]

/-- One improving update of the cheapest search preserves its invariant;
the updated airport can never be one already popped, because a pop's cost
is a lower bound on every queued cost from then on. -/
theorem cUpd_CInv (g : Graph) (start dest : String) (c0 : Nat) (a0 : String)
    (s : CState) (f : Flight) (p : Nat)
    (hi : CInv g start dest s)
    (hfg : f ∈ graphGet g a0)
    (horig : f.origin = a0)
    (ha0log : a0 ∈ s.log.map Prod.fst)
    (hfroz : ∀ X, X ∈ s.log.map Prod.fst → ∃ d, alGet s.dist X = some d ∧ d ≤ c0)
    (hqlb : ∀ c t Y, (c, t, Y) ∈ s.pq → c0 ≤ c)
    (himp : alGet s.dist f.dest = Option.none ∨
      ∃ d, alGet s.dist f.dest = some d ∧ c0 + p < d) :
    CInv g start dest (cUpd s f (c0 + p)) ∧
    (∀ X, X ∈ (cUpd s f (c0 + p)).log.map Prod.fst →
      ∃ d, alGet (cUpd s f (c0 + p)).dist X = some d ∧ d ≤ c0) ∧
    (∀ c t Y, (c, t, Y) ∈ (cUpd s f (c0 + p)).pq → c0 ≤ c) := by
  have hDpop : f.dest ∉ s.log.map Prod.fst := by
    intro hmem
    obtain ⟨d, hd, hdle⟩ := hfroz f.dest hmem
    rcases himp with hn | ⟨d2, hd2, hlt⟩
    · rw [hn] at hd; cases hd
    · rw [hd] at hd2
      injection hd2 with h2
      omega
  have hDstart : f.dest ≠ start := by
    intro h
    rcases himp with hn | ⟨d2, hd2, hlt⟩
    · rw [h, hi.startDist] at hn; cases hn
    · rw [h, hi.startDist] at hd2
      injection hd2 with h2
      omega
  refine ⟨?_, ?_, ?_⟩
  · constructor
    case distNodup =>
      rw [cUpd_dist]; exact nodup_keys_alSet _ _ _ hi.distNodup
    case prevNodup =>
      rw [cUpd_prev]; exact nodup_keys_alSet _ _ _ hi.prevNodup
    case startDist =>
      rw [cUpd_dist, alGet_alSet_ne _ _ _ _ (Ne.symm hDstart)]; exact hi.startDist
    case startPrev =>
      rw [cUpd_prev, alGet_alSet_ne _ _ _ _ (Ne.symm hDstart)]; exact hi.startPrev
    case prevOfDist =>
      intro X d hXs h
      rw [cUpd_dist] at h
      rw [cUpd_prev]
      by_cases hX : X = f.dest
      · subst hX
        rw [alGet_alSet_self]
        rfl
      · rw [alGet_alSet_ne _ _ _ _ hX] at h
        rw [alGet_alSet_ne _ _ _ _ hX]
        exact hi.prevOfDist X d hXs h
    case prevSound =>
      intro X f2 h
      rw [cUpd_prev] at h
      rw [cUpd_log]
      by_cases hX : X = f.dest
      · subst hX
        rw [alGet_alSet_self] at h
        injection h with h2
        subst h2
        obtain ⟨d0, hd0, _⟩ := hfroz a0 ha0log
        refine ⟨rfl, hDstart, by rw [horig]; exact hfg, ?_, ?_, ?_⟩
        · rw [cUpd_dist, horig]
          exact alGet_alSet_isSome _ _ _ _ (by rw [hd0]; rfl)
        · rw [horig]; exact ha0log
        · intro hmem
          exact absurd hmem hDpop
      · rw [alGet_alSet_ne _ _ _ _ hX] at h
        obtain ⟨hfd, hns, hg2, hsome, hlog, hrank⟩ := hi.prevSound X f2 h
        exact ⟨hfd, hns, hg2, by rw [cUpd_dist]; exact alGet_alSet_isSome _ _ _ _ hsome,
          hlog, hrank⟩
    case queueLabeled =>
      intro c t X h
      rw [cUpd_pq] at h
      rw [cUpd_dist]
      rcases List.mem_append.mp h with h | h
      · obtain ⟨d, hd, hdle⟩ := hi.queueLabeled c t X h
        by_cases hX : X = f.dest
        · subst hX
          refine ⟨c0 + p, alGet_alSet_self _ _ _, ?_⟩
          rcases himp with hn | ⟨d3, hd3, hlt3⟩
          · rw [hn] at hd; cases hd
          · rw [hd3] at hd
            injection hd with h3
            omega
        · exact ⟨d, by rw [alGet_alSet_ne _ _ _ _ hX]; exact hd, hdle⟩
      · simp only [List.mem_singleton, Prod.mk.injEq] at h
        obtain ⟨hc, ht, hX⟩ := h
        subst hc
        subst hX
        exact ⟨c0 + p, alGet_alSet_self _ _ _, le_refl _⟩
    case visitedFrozen =>
      intro X hX
      rw [cUpd_log] at hX
      obtain ⟨d, hd, hbound⟩ := hi.visitedFrozen X hX
      have hXD : X ≠ f.dest := fun hh => hDpop (hh ▸ hX)
      refine ⟨d, by rw [cUpd_dist, alGet_alSet_ne _ _ _ _ hXD]; exact hd, ?_⟩
      intro c t Y hk
      rw [cUpd_pq] at hk
      rcases List.mem_append.mp hk with hk | hk
      · exact hbound c t Y hk
      · simp only [List.mem_singleton, Prod.mk.injEq] at hk
        obtain ⟨d2, hd2, hd2c0⟩ := hfroz X hX
        rw [hd] at hd2
        injection hd2 with h2
        omega
    case queuePrev =>
      intro c t X h
      rw [cUpd_pq] at h
      rw [cUpd_prev]
      rcases List.mem_append.mp h with h | h
      · rcases hi.queuePrev c t X h with h | h
        · exact Or.inl h
        · exact Or.inr (alGet_alSet_isSome _ _ _ _ h)
      · simp only [List.mem_singleton, Prod.mk.injEq] at h
        right
        rw [h.2.2, alGet_alSet_self]
        rfl
    case visitedLog =>
      rw [cUpd_visited, cUpd_log]; exact hi.visitedLog
    case visitedNodup =>
      rw [cUpd_visited]; exact hi.visitedNodup
  · intro X hX
    rw [cUpd_log] at hX
    obtain ⟨d, hd, hdle⟩ := hfroz X hX
    have hXD : X ≠ f.dest := fun hh => hDpop (hh ▸ hX)
    exact ⟨d, by rw [cUpd_dist, alGet_alSet_ne _ _ _ _ hXD]; exact hd, hdle⟩
  · intro c t Y h
    rw [cUpd_pq] at h
    rcases List.mem_append.mp h with h | h
    · exact hqlb c t Y h
    · simp only [List.mem_singleton, Prod.mk.injEq] at h
      omega

/-- The whole relaxation round of the cheapest search preserves its
invariant, leaves the ghost log untouched, and keeps the popped cost a
lower bound on all queued costs. -/
theorem relaxListC_CInv (g : Graph) (cabin start dest : String) (c0 t0a : Nat)
    (a0 : String) (ho : ∀ a f, f ∈ graphGet g a → f.origin = a) :
    ∀ fs (s s2 : CState), (∀ f ∈ fs, f ∈ graphGet g a0) →
      relaxListC cabin start c0 t0a a0 fs s = .ok s2 →
      CInv g start dest s →
      a0 ∈ s.log.map Prod.fst →
      (∀ X, X ∈ s.log.map Prod.fst → ∃ d, alGet s.dist X = some d ∧ d ≤ c0) →
      (∀ c t Y, (c, t, Y) ∈ s.pq → c0 ≤ c) →
      CInv g start dest s2 ∧ s2.log = s.log := by
  intro fs
  induction fs with
  | nil =>
    intro s s2 _ hok hi _ _ _
    simp only [relaxListC] at hok
    cases hok
    exact ⟨hi, rfl⟩
  | cons f rest ih =>
    intro s s2 hfs hok hi ha0log hfroz hqlb
    have hfg : f ∈ graphGet g a0 := hfs f (List.mem_cons_self _ _)
    have hrestg : ∀ f2 ∈ rest, f2 ∈ graphGet g a0 :=
      fun f2 h2 => hfs f2 (List.mem_cons_of_mem _ h2)
    rcases relaxListC_cons_char cabin start c0 t0a a0 f rest s with
      ⟨_, heq⟩ | ⟨_, _, heq⟩ | ⟨p, s1, _, _, heq, hcases⟩
    · rw [heq] at hok
      exact ih s s2 hrestg hok hi ha0log hfroz hqlb
    · rw [heq] at hok
      cases hok
    · rw [heq] at hok
      have hs1 : CInv g start dest s1 ∧ s1.log = s.log ∧
          (∀ X, X ∈ s1.log.map Prod.fst → ∃ d, alGet s1.dist X = some d ∧ d ≤ c0) ∧
          (∀ c t Y, (c, t, Y) ∈ s1.pq → c0 ≤ c) := by
        rcases hcases with ⟨hn, rfl⟩ | ⟨⟨d, hd, hlt⟩, rfl⟩ | ⟨_, rfl⟩
        · obtain ⟨h1, h2, h3⟩ := cUpd_CInv g start dest c0 a0 s f p hi hfg
            (ho a0 f hfg) ha0log hfroz hqlb (Or.inl hn)
          exact ⟨h1, rfl, by rw [cUpd_log]; exact h2, h3⟩
        · obtain ⟨h1, h2, h3⟩ := cUpd_CInv g start dest c0 a0 s f p hi hfg
            (ho a0 f hfg) ha0log hfroz hqlb (Or.inr ⟨d, hd, hlt⟩)
          exact ⟨h1, rfl, by rw [cUpd_log]; exact h2, h3⟩
        · exact ⟨hi, rfl, hfroz, hqlb⟩
      obtain ⟨hi1, hlog1, hfroz1, hqlb1⟩ := hs1
      obtain ⟨hifin, hlogfin⟩ := ih s1 s2 hrestg hok hi1
        (by rw [hlog1]; exact ha0log) hfroz1 hqlb1
      exact ⟨hifin, by rw [hlogfin, hlog1]⟩

/-- One continuing iteration of the cheapest-search loop preserves its
invariant. -/
theorem cstep_CInv_cont (g : Graph) (cabin start dest : String)
    (ho : ∀ a f, f ∈ graphGet g a → f.origin = a)
    (s s' : CState) (hi : CInv g start dest s)
    (h : cstep g cabin start dest s = .cont s') : CInv g start dest s' := by
  rcases cstep_char g cabin start dest s _ h with
    ⟨_, habs⟩ | ⟨c0, t0a, a0, rest, hpop, hvis, hout⟩ |
    ⟨c0, t0a, a0, rest, hpop, hvis, hdest, habs⟩ |
    ⟨c0, t0a, a0, rest, hpop, hvis, hdest, ⟨s2, hrel, hout⟩ | ⟨hrel, habs⟩⟩
  · cases habs
  · -- an already-visited (airport, cost) pair is skipped
    obtain ⟨hmem, hmin, hperm⟩ := popMinC_some hpop
    have hrsub : ∀ y, y ∈ rest → y ∈ s.pq :=
      fun y hy => hperm.mem_iff.mpr (List.mem_cons_of_mem _ hy)
    cases hout
    exact {
      distNodup := hi.distNodup
      prevNodup := hi.prevNodup
      startDist := hi.startDist
      startPrev := hi.startPrev
      prevOfDist := hi.prevOfDist
      prevSound := hi.prevSound
      queueLabeled := fun c t X hk => hi.queueLabeled c t X (hrsub _ hk)
      visitedFrozen := by
        intro X hX
        obtain ⟨d, hd, hb⟩ := hi.visitedFrozen X hX
        exact ⟨d, hd, fun c t Y hk => hb c t Y (hrsub _ hk)⟩
      queuePrev := fun c t X hk => hi.queuePrev c t X (hrsub _ hk)
      visitedLog := hi.visitedLog
      visitedNodup := hi.visitedNodup }
  · cases habs
  · -- a fresh (airport, cost) pair is finalized and relaxed
    obtain ⟨hmem, hmin, hperm⟩ := popMinC_some hpop
    have hrsub : ∀ y, y ∈ rest → y ∈ s.pq :=
      fun y hy => hperm.mem_iff.mpr (List.mem_cons_of_mem _ hy)
    obtain ⟨d0, hd0, hd0c0⟩ := hi.queueLabeled c0 t0a a0 hmem
    cases hout
    have hpa1 : (s.log ++ [(a0, c0)]).map Prod.fst = s.log.map Prod.fst ++ [a0] := by
      simp
    have hi1 : CInv g start dest { s with pq := rest, visited := (a0, c0) :: s.visited, log := s.log ++ [(a0, c0)] } := by
      refine {
        distNodup := hi.distNodup
        prevNodup := hi.prevNodup
        startDist := hi.startDist
        startPrev := hi.startPrev
        prevOfDist := hi.prevOfDist
        prevSound := ?_
        queueLabeled := fun c t X hk => hi.queueLabeled c t X (hrsub _ hk)
        visitedFrozen := ?_
        queuePrev := fun c t X hk => hi.queuePrev c t X (hrsub _ hk)
        visitedLog := by
          simp only [List.reverse_append, List.reverse_cons, List.reverse_nil,
            List.nil_append, List.singleton_append]
          rw [hi.visitedLog]
        visitedNodup := List.nodup_cons.mpr ⟨hvis, hi.visitedNodup⟩ }
      · intro X f2 hf2
        obtain ⟨hfd, hns, hg2, hsome, hlog, hrank⟩ := hi.prevSound X f2 hf2
        simp only [hpa1]
        refine ⟨hfd, hns, hg2, hsome, List.mem_append_left _ hlog, ?_⟩
        have hfo1 : firstIdx (s.log.map Prod.fst ++ [a0]) f2.origin =
            firstIdx (s.log.map Prod.fst) f2.origin :=
          firstIdx_append_of_mem _ _ _ hlog
        intro hX1
        rw [hfo1]
        by_cases hXpa : X ∈ s.log.map Prod.fst
        · rw [firstIdx_append_of_mem _ _ _ hXpa]
          exact hrank hXpa
        · have hXa0 : X = a0 := by
            rcases List.mem_append.mp hX1 with h2 | h2
            · exact absurd h2 hXpa
            · simpa using h2
          rw [firstIdx_append_of_not_mem _ _ _ hXpa, hXa0]
          have h1 := firstIdx_lt_length _ f2.origin hlog
          simp only [firstIdx, if_pos rfl]
          omega
      · intro X hX1
        simp only [hpa1] at hX1
        rcases List.mem_append.mp hX1 with hX | hX
        · obtain ⟨d, hd, hb⟩ := hi.visitedFrozen X hX
          exact ⟨d, hd, fun c t Y hk => hb c t Y (hrsub _ hk)⟩
        · have hXa0 : X = a0 := by simpa using hX
          subst hXa0
          refine ⟨d0, hd0, ?_⟩
          intro c t Y hk
          have := hmin (c, t, Y) (hrsub _ hk)
          simp only at this
          omega
    have ha0log1 : a0 ∈ ((s.log ++ [(a0, c0)]).map Prod.fst) := by
      rw [hpa1]
      exact List.mem_append_right _ (List.mem_singleton.mpr rfl)
    have hfroz1 : ∀ X, X ∈ (s.log ++ [(a0, c0)]).map Prod.fst →
        ∃ d, alGet s.dist X = some d ∧ d ≤ c0 := by
      intro X hX1
      rw [hpa1] at hX1
      rcases List.mem_append.mp hX1 with hX | hX
      · obtain ⟨d, hd, hb⟩ := hi.visitedFrozen X hX
        refine ⟨d, hd, ?_⟩
        have := hb c0 t0a a0 hmem
        omega
      · have hXa0 : X = a0 := by simpa using hX
        subst hXa0
        exact ⟨d0, hd0, hd0c0⟩
    have hqlb1 : ∀ c t Y, (c, t, Y) ∈ rest → c0 ≤ c := by
      intro c t Y hk
      have := hmin (c, t, Y) (hrsub _ hk)
      simpa using this
    exact (relaxListC_CInv g cabin start dest c0 t0a a0 ho (graphGet g a0) _ s'
      (fun f hf => hf) hrel hi1 ha0log1 hfroz1 hqlb1).1
  · cases habs

/-- The invariant of the cheapest search holds at its initial state. -/
theorem cInit_CInv (g : Graph) (start dest : String) (t0 : Nat) :
    CInv g start dest (cInit start t0) := by
  refine {
    distNodup := by simp [cInit]
    prevNodup := by simp [cInit]
    startDist := by simp [cInit, alGet]
    startPrev := rfl
    prevOfDist := ?_
    prevSound := ?_
    queueLabeled := ?_
    visitedFrozen := by intro X hX; cases hX
    queuePrev := ?_
    visitedLog := rfl
    visitedNodup := List.nodup_nil }
  · intro X d hXs h
    by_cases hX : start = X
    · exact absurd hX.symm hXs
    · simp only [cInit, alGet, if_neg hX] at h
      cases h
  · intro X f h
    simp only [cInit, alGet] at h
    cases h
  · intro c t X h
    simp only [cInit, List.mem_singleton, Prod.mk.injEq] at h
    obtain ⟨hc, ht, hX⟩ := h
    subst hX
    exact ⟨0, by simp [cInit, alGet], by omega⟩
  · intro c t X h
    simp only [cInit, List.mem_singleton, Prod.mk.injEq] at h
    exact Or.inl h.2.2

/-- What holds when the cheapest-search loop exits: the start airport is
never mapped, the walk of `reconstruct_itinerary` terminates from every
airport, and the loop never returns by exhausting its reconstruction. -/
theorem cstep_CInv_done (g : Graph) (cabin start dest : String)
    (s s' : CState) (r : SearchResult) (hi : CInv g start dest s)
    (h : cstep g cabin start dest s = .done r s') :
    alGet s'.prev start = Option.none ∧ r ≠ .hang ∧
    (∀ X, ∃ legs, reconstruct_itinerary s'.prev X = .found legs) := by
  have hsound : ∀ X f, alGet s.prev X = some f →
      f.origin ∈ s.log.map Prod.fst ∧
      (X ∈ s.log.map Prod.fst →
        firstIdx (s.log.map Prod.fst) f.origin <
          firstIdx (s.log.map Prod.fst) X) := by
    intro X f hf
    obtain ⟨_, _, _, _, hlog, hrank⟩ := hi.prevSound X f hf
    exact ⟨hlog, hrank⟩
  have hprevfacts : ∀ X, ∃ legs, reconstruct_itinerary s.prev X = .found legs :=
    reconstructC_found s.prev _ hsound
  rcases cstep_char g cabin start dest s _ h with
    ⟨hpop, hout⟩ | ⟨c0, t0a, a0, rest, hpop, hvis, habs⟩ |
    ⟨c0, t0a, a0, rest, hpop, hvis, hdest, hout⟩ |
    ⟨c0, t0a, a0, rest, hpop, hvis, hdest, ⟨s2, hrel, habs⟩ | ⟨hrel, hout⟩⟩
  · injection hout with hr hs
    subst hr
    refine ⟨by rw [hs]; exact hi.startPrev, ?_, by rw [hs]; exact hprevfacts⟩
    intro habs2
    cases habs2
  · cases habs
  · injection hout with hr hs
    have hsprev : s'.prev = s.prev := by rw [hs]
    obtain ⟨legs0, hlegs0⟩ := hprevfacts dest
    refine ⟨by rw [hsprev]; exact hi.startPrev, ?_, by rw [hsprev]; exact hprevfacts⟩
    rw [hr, hlegs0]
    intro habs2
    cases habs2
  · cases habs
  · injection hout with hr hs
    subst hr
    refine ⟨by rw [hs]; exact hi.startPrev, ?_, by rw [hs]; exact hprevfacts⟩
    intro habs2
    cases habs2

/-- Run-level predecessor-map facts of the cheapest search. -/
theorem crun_prev_facts (g : Graph) (cabin start dest : String) (t0 : Nat)
    (ho : ∀ a f, f ∈ graphGet g a → f.origin = a)
    (n : Nat) (r : SearchResult) (sF : CState)
    (h : crun g cabin start dest n (cInit start t0) = some (r, sF)) :
    alGet sF.prev start = Option.none ∧ r ≠ .hang ∧
    (∀ X, ∃ legs, reconstruct_itinerary sF.prev X = .found legs) := by
  exact runSteps_inv (cstep g cabin start dest) (CInv g start dest) _
    (fun s s' hi hs => cstep_CInv_cont g cabin start dest ho s s' hi hs)
    (fun s r0 s' hi hs => cstep_CInv_done g cabin start dest s s' r0 hi hs)
    n _ r sF (cInit_CInv g start dest t0) h

/-- C10: on every route graph built from valid flights and every query, the
predecessor maps built by `find_earliest_itinerary` and
`find_cheapest_itinerary` never assign a predecessor flight to the start
airport, and the backward walk of `reconstruct_itinerary` over the final
predecessor map terminates from every airport (in particular from every
mapped one), so neither search's reconstruction can hang. -/
theorem claim10_prev_invariants (fs : List Flight) (start dest cabin : String)
    (t0 : Nat) (hv : ∀ f ∈ fs, f.depart < f.arrive) :
    (∀ n r sF, erun (build_graph fs) start dest n (eInit start t0) = some (r, sF) →
      alGet sF.prev start = Option.none ∧ r ≠ .hang ∧
      ∀ X, (alGet sF.prev X).isSome →
        ∃ legs, reconstruct_itinerary sF.prev X = .found legs) ∧
    (∀ n r sF, crun (build_graph fs) cabin start dest n (cInit start t0) =
        some (r, sF) →
      alGet sF.prev start = Option.none ∧ r ≠ .hang ∧
      ∀ X, (alGet sF.prev X).isSome →
        ∃ legs, reconstruct_itinerary sF.prev X = .found legs) := by
  constructor
  · intro n r sF h
    have hc := erun_correct (build_graph fs) start dest t0
      (build_graph_origin fs) (build_graph_valid fs hv) n r sF h
    refine ⟨hc.2.2.2.1, ?_, hc.2.2.2.2⟩
    rcases hc.2.2.1 with rfl | ⟨legs, rfl⟩
    · intro habs; cases habs
    · intro habs; cases habs
  · intro n r sF h
    have hc := crun_prev_facts (build_graph fs) cabin start dest t0
      (build_graph_origin fs) n r sF h
    exact ⟨hc.1, hc.2.1, fun X _ => hc.2.2 X⟩

/-- Witness for C10 on the spec's section-8 scenario run `A -> C`: its
final predecessor map does not map the start airport, and reconstruction
from the mapped airport `C` terminates with a found itinerary. -/
theorem claim10_witness :
    alGet [("B", legAB), ("C", legBC2)] "A" = (Option.none : Option Flight) ∧
    (∃ legs, reconstruct_itinerary [("B", legAB), ("C", legBC2)] "C" =
      .found legs) := by
  have h := (claim10_prev_invariants [legAB, legBC2] "A" "C" "economy" 480
    (by decide)).1 3 (.found [legAB, legBC2]) _ rfl
  exact ⟨h.1, h.2.2 "C" (by decide)⟩

end FlightPlanner
